import Mathlib

/-!
# zapsentry

A shallow embedding of `sentry.go`: the `SentryCore` that forwards zap log
entries to Sentry.  The functions of the package (`NewCore`, `With`, `Check`,
`Write`, `Sync`) are translated statement by statement.  What the package
imports (zapcore, sentry-go, `strings`, `fmt`, `time`, the Go runtime) is not
part of the repository; the parts of it the package touches are modelled in
the first sections, each one named after the Go declaration it stands for.

`Write` takes two things it does not fix itself as arguments: the event that
`sentry.NewEvent()` returns, and the order in which the run time visits the
entries of a map.  `With` is given twice: on values, and on slices with their
backing arrays in memory, where aliasing can be stated.  `Write`, `Check` and
`Sync` are also given as steps on the struct of their receiver, where a write
to the receiver could be stated.
-/

namespace zapsentry

/-! ## Go values -/

/-- A Go string: an immutable sequence of bytes (not of characters). -/
abbrev GoString := List UInt8

/-- The bytes of a string literal: its UTF-8 encoding, as the Go compiler stores it. -/
def utf8 (s : String) : GoString := s.data.flatMap String.utf8EncodeChar

/-- The slice expression `s[i:]` on a string: the bytes from index `i` on; the
run-time panics (`none`) when `i` is larger than `len(s)`. -/
def sliceFrom (s : GoString) (i : Nat) : Option GoString :=
  if i ≤ s.length then some (s.drop i) else none

/-- A dynamic value, Go's `interface{}`, as the map encoder stores it: a string,
an integer, a boolean, or any other value, which is represented by the text
that `%v` prints for it. -/
inductive Any where
  | string (s : GoString)
  | int64 (n : Int)
  | bool (b : Bool)
  | other (text : GoString)
deriving DecidableEq

/-- The type assertion `value.(string)`: the string and `ok`, or not `ok`. -/
def Any.assertString : Any → Option GoString
  | .string s => some s
  | _ => none

/-- A Go map, as the list of its entries; `mapSet` keeps the keys distinct. -/
abbrev GoMap (K V : Type) := List (K × V)

/-- The assignment `m[k] = v`: replaces the entry of `k`, or adds one. -/
def mapSet {K V : Type} [DecidableEq K] : GoMap K V → K → V → GoMap K V
  | [], k, v => [(k, v)]
  | (k0, v0) :: m, k, v => if k0 = k then (k, v) :: m else (k0, v0) :: mapSet m k v

/-- The lookup `v, ok := m[k]`. -/
def mapGet {K V : Type} [DecidableEq K] : GoMap K V → K → Option V
  | [], _ => none
  | (k0, v0) :: m, k => if k0 = k then some v0 else mapGet m k

/-- The index expression `m[k]`: the zero value when `k` has no entry. -/
def mapIndex {K V : Type} [DecidableEq K] (zero : V) (m : GoMap K V) (k : K) : V :=
  (mapGet m k).getD zero

/-- The Go builtin `len(m)`. -/
def mapLen {K V : Type} (m : GoMap K V) : Nat := m.length

/-- The lookup `v, ok := m[k]` on a map that may be nil: a nil map has no entry. -/
def nilableGet {K V : Type} [DecidableEq K] (m : Option (GoMap K V)) (k : K) : Option V :=
  match m with
  | none => none
  | some m => mapGet m k

/-- The Go builtin `make([]T, n)`: `n` zero values. -/
def goMake {α : Type} (zero : α) (n : Nat) : List α := List.replicate n zero

/-- The Go builtin `copy(dst, src)`, as the new contents of `dst`: the first
`min(len(dst), len(src))` elements come from `src`. -/
def goCopy {α : Type} (dst src : List α) : List α :=
  src.take dst.length ++ dst.drop src.length

/-- The statement `copy(dst[off:], src)`, as the new contents of `dst`. -/
def goCopyAt {α : Type} (dst : List α) (off : Nat) (src : List α) : List α :=
  dst.take off ++ goCopy (dst.drop off) src

namespace strings

/-- Go's `strings.HasPrefix`: `len(s) >= len(p) && s[:len(p)] == p`. -/
def HasPrefix (s p : GoString) : Bool :=
  decide (p.length ≤ s.length) && (s.take p.length == p)

end strings

namespace fmt

/-- The decimal digits of a natural number, as ASCII bytes. -/
def decimal (n : Nat) : GoString := (Nat.toDigits 10 n).map (fun c => c.toNat.toUInt8)

/-- Go's `fmt.Sprintf("%v", value)`: the default text of a value.  A string prints
as itself, an integer in decimal with a leading `-` when negative, a boolean
as `true` or `false`. -/
def Sprintf_v : Any → GoString
  | .string s => s
  | .int64 (.ofNat n) => decimal n
  | .int64 (.negSucc n) => 45 :: decimal (n + 1)
  | .bool true => utf8 "true"
  | .bool false => utf8 "false"
  | .other text => text

end fmt

namespace time

/-- Go's `time.Duration`: a count of nanoseconds. -/
abbrev Duration := Int

/-- Go's `time.Second`. -/
def Second : Duration := 1000000000

/-- Go's `time.Time`, as an instant counted in nanoseconds. -/
abbrev Time := Int

end time

/-! ## zapcore -/

namespace zapcore

/-- Modelled from the spec: the source severity.  zapcore declares
`type Level int8` with `DebugLevel = -1` up to `FatalLevel = 5`; any other
number is a severity outside the seven. -/
abbrev Level := Int

def DebugLevel : Level := -1
def InfoLevel : Level := 0
def WarnLevel : Level := 1
def ErrorLevel : Level := 2
def DPanicLevel : Level := 3
def PanicLevel : Level := 4
def FatalLevel : Level := 5

/-- Modelled from the spec: the level filter, `zapcore.LevelEnabler`, which
exposes `Enabled(level) bool`. -/
structure LevelEnabler where
  Enabled : Level → Bool

/-- Modelled from the spec: a log record, `zapcore.Entry`: severity level,
timestamp, emitter name and message text. -/
structure Entry where
  Level : Level
  Time : time.Time
  LoggerName : GoString
  Message : GoString
deriving DecidableEq

/-- Modelled from the spec: a field, `zapcore.Field`: a key and a typed value. -/
structure Field where
  Key : GoString
  Value : Any
deriving DecidableEq

/-- The zero value of `Field`. -/
def Field.zero : Field := ⟨[], .other []⟩

/-- Modelled from the spec: `zapcore.MapObjectEncoder`, the encoding target: a
mapping keyed by field name. -/
structure MapObjectEncoder where
  Fields : GoMap GoString Any
deriving DecidableEq

/-- The constructor `zapcore.NewMapObjectEncoder()`: an empty mapping. -/
def NewMapObjectEncoder : MapObjectEncoder := ⟨[]⟩

/-- Modelled from the spec: `Field.AddTo(enc)` stores the value under the
field's key; a later entry with the same key overwrites an earlier one. -/
def Field.AddTo (f : Field) (enc : MapObjectEncoder) : MapObjectEncoder :=
  ⟨mapSet enc.Fields f.Key f.Value⟩

end zapcore

/-! ## sentry-go -/

namespace sentry

/-- Modelled from the spec: the target severity.  sentry-go declares
`type Level string`; its zero value is the empty string. -/
abbrev Level := GoString

def LevelDebug : Level := utf8 "debug"
def LevelInfo : Level := utf8 "info"
def LevelWarning : Level := utf8 "warning"
def LevelError : Level := utf8 "error"
def LevelFatal : Level := utf8 "fatal"

/-- Modelled from the spec: the remote event, `sentry.Event`: message,
timestamp, severity, emitter name, tags and extras.  `Tags` and `Extra` are Go
maps, so each is either nil (`none`) or a map, possibly an empty one. -/
structure Event where
  Message : GoString
  Timestamp : time.Time
  Level : Level
  Logger : GoString
  Tags : Option (GoMap GoString GoString)
  Extra : Option (GoMap GoString Any)
deriving DecidableEq

/-- The identifier `sentry.EventID` that a capture returns. -/
abbrev EventID := GoString

/-- Modelled from the spec: the sink, a non-nil `*sentry.Hub`, by what it
answers: `CaptureEvent(event)` returns an identifier or nil, and
`Flush(timeout)` reports whether it finished in time. -/
structure Hub where
  CaptureEvent : Event → Option EventID
  Flush : time.Duration → Bool

/-- A call made on the hub. -/
inductive HubCall where
  | CaptureEvent (event : Event)
  | Flush (timeout : time.Duration)
deriving DecidableEq

end sentry

/-! ## sentry.go -/

/-- The constant `DefaultTagPrefix`. -/
def DefaultTagPrefix : GoString := utf8 "#"

/-- The package's error values; a nil `error` is `none`. -/
inductive Error where
  | ErrFlushTimeout
  | ErrClientOrScopeUnavailable
deriving DecidableEq

/-- The translation table from zap levels to sentry levels. -/
def zapToSentryLevels : GoMap zapcore.Level sentry.Level :=
  [ (zapcore.DebugLevel, sentry.LevelDebug),
    (zapcore.InfoLevel, sentry.LevelInfo),
    (zapcore.WarnLevel, sentry.LevelWarning),
    (zapcore.ErrorLevel, sentry.LevelError),
    (zapcore.DPanicLevel, sentry.LevelError),
    (zapcore.PanicLevel, sentry.LevelError),
    (zapcore.FatalLevel, sentry.LevelError) ]

/-- The struct `SentryCore`. -/
structure SentryCore where
  LevelEnabler : zapcore.LevelEnabler
  level : zapcore.Level
  hub : sentry.Hub
  fields : List zapcore.Field
  TagPrefix : GoString

/-- What a call that talks to the hub leaves behind: the calls it made on the
hub, in order, and the `error` it returned (`none` is nil). -/
structure Outcome where
  calls : List sentry.HubCall
  err : Option Error
deriving DecidableEq

/-- The function `NewCore`: the zero `SentryCore` with hub, enabler and fields set. -/
def NewCore (hub : sentry.Hub) (enab : zapcore.LevelEnabler)
    (fields : List zapcore.Field) : SentryCore × Option Error :=
  let core : SentryCore := ⟨⟨fun _ => false⟩, 0, ⟨fun _ => none, fun _ => false⟩, [], []⟩
  let core := { core with hub := hub }
  let core := { core with LevelEnabler := enab }
  let core := { core with fields := fields }
  (core, none)

/-- The method `With`: clone the core, then clone and append the fields. -/
def SentryCore.With (core : SentryCore) (fields : List zapcore.Field) : SentryCore :=
  let clone := core
  let clone := { clone with
    fields := goMake zapcore.Field.zero (core.fields.length + fields.length) }
  let clone := { clone with fields := goCopy clone.fields core.fields }
  let clone := { clone with fields := goCopyAt clone.fields core.fields.length fields }
  clone

/-! ## The field slices in memory -/

/-- A slice value: the address of its backing array, where the slice starts in
that array, and its length. -/
structure Slice where
  array : Nat
  offset : Nat
  len : Nat
deriving DecidableEq

/-- The backing arrays of the field slices, each at its address. -/
abbrev Memory := List (List zapcore.Field)

/-- The elements that a slice denotes in a memory. -/
def Memory.load (mem : Memory) (s : Slice) : List zapcore.Field :=
  ((mem.getD s.array []).drop s.offset).take s.len

/-- A slice lies within a memory: its array is allocated and covers its range. -/
def Memory.holds (mem : Memory) (s : Slice) : Prop :=
  s.array < mem.length ∧ s.offset + s.len ≤ (mem.getD s.array []).length

instance (mem : Memory) (s : Slice) : Decidable (Memory.holds mem s) := by
  unfold Memory.holds
  infer_instance

/-- The Go builtin `make([]zapcore.Field, n)` in memory: a new array of `n` zero
fields at a fresh address, and the slice of all of it. -/
def Memory.make (mem : Memory) (n : Nat) : Memory × Slice :=
  (mem ++ [goMake zapcore.Field.zero n], ⟨mem.length, 0, n⟩)

/-- The slice expression `s[i:]` on a slice: the same array, from `i` on. -/
def Slice.sliceFrom (s : Slice) (i : Nat) : Slice :=
  ⟨s.array, s.offset + i, s.len - i⟩

/-- The Go builtin `copy(dst, src)` in memory: the first `min(len(dst), len(src))`
elements of `src` are written into the array of `dst`, from where `dst` starts. -/
def Memory.copy (mem : Memory) (dst src : Slice) : Memory :=
  let n := min dst.len src.len
  let elems := (Memory.load mem src).take n
  let arr := mem.getD dst.array []
  mem.set dst.array (arr.take dst.offset ++ elems ++ arr.drop (dst.offset + n))

/-- The statements of `With` that touch the field slices, in memory:
`clone.fields = make(...)`, then the two copies.  The result is the memory
afterwards and `clone.fields`; the slice header of the receiver is only read. -/
def WithInMemory (mem : Memory) (coreFields fields : Slice) : Memory × Slice :=
  let made := Memory.make mem (coreFields.len + fields.len)
  let mem := made.1
  let cloneFields := made.2
  let mem := Memory.copy mem cloneFields coreFields
  let mem := Memory.copy mem (cloneFields.sliceFrom coreFields.len) fields
  (mem, cloneFields)

/-- A value of the interface `zapcore.Core`: a core of this package, or a core
of some other implementation, told apart by a number. -/
inductive Core where
  | sentry (core : SentryCore)
  | foreign (id : Nat)

/-- Modelled from the spec: `zapcore.CheckedEntry`, a record together with the
cores registered to write it. -/
structure CheckedEntry where
  Entry : zapcore.Entry
  cores : List Core

/-- Modelled from the spec: `CheckedEntry.AddCore(entry, core)` registers the
core for the record; a nil checked entry is first replaced by a fresh one for
this record. -/
def AddCore (checked : Option CheckedEntry) (ent : zapcore.Entry) (core : Core) :
    Option CheckedEntry :=
  let ce : CheckedEntry :=
    match checked with
    | none => ⟨ent, []⟩
    | some ce => ce
  some { ce with cores := ce.cores ++ [core] }

/-- The method `Check`: whether the supplied entry should be logged. -/
def SentryCore.Check (core : SentryCore) (entry : zapcore.Entry)
    (checked : Option CheckedEntry) : Option CheckedEntry :=
  if core.LevelEnabler.Enabled entry.Level then
    AddCore checked entry (.sentry core)
  else
    checked

/-- The classification loop of `Write`, `for key, value := range enc.Fields`,
over the entries in the order the run time visits them, from the `tags` and
`extra` built so far.  `none` is a run-time panic of `key[1:]`. -/
def classify (tagPrefix : GoString) :
    List (GoString × Any) → GoMap GoString GoString × GoMap GoString Any →
      Option (GoMap GoString GoString × GoMap GoString Any)
  | [], acc => some acc
  | (key, value) :: rest, (tags, extra) =>
    if strings.HasPrefix key tagPrefix then
      match value.assertString with
      | some v =>
        match sliceFrom key 1 with
        | some k1 => classify tagPrefix rest (mapSet tags k1 v, extra)
        | none => none
      | none =>
        match sliceFrom key 1 with
        | some k1 => classify tagPrefix rest (mapSet tags k1 (fmt.Sprintf_v value), extra)
        | none => none
    else
      classify tagPrefix rest (tags, mapSet extra key value)

/-- The fields of the map encoder after the accumulated fields and then the
per-call fields have been added to a new encoder. -/
def encode (accumulated fields : List zapcore.Field) : zapcore.MapObjectEncoder :=
  let enc := zapcore.NewMapObjectEncoder
  let enc := accumulated.foldl (fun enc f => f.AddTo enc) enc
  let enc := fields.foldl (fun enc f => f.AddTo enc) enc
  enc

/-- The tag prefix in force: `core.TagPrefix`, or `DefaultTagPrefix` when that is empty. -/
def SentryCore.activeTagPrefix (core : SentryCore) : GoString :=
  if core.TagPrefix = [] then DefaultTagPrefix else core.TagPrefix

/-- The method `Write`.  `NewEvent` is what `sentry.NewEvent()` returns and
`range` the order in which the run time visits the entries of a map; neither
is fixed by this package.  `none` is a run-time panic. -/
def SentryCore.Write (NewEvent : sentry.Event)
    (range : GoMap GoString Any → List (GoString × Any))
    (core : SentryCore) (entry : zapcore.Entry) (fields : List zapcore.Field) :
    Option Outcome :=
  let event := NewEvent
  let event := { event with Message := entry.Message }
  let event := { event with Timestamp := entry.Time }
  let event := { event with Level := mapIndex [] zapToSentryLevels entry.Level }
  let event := { event with Logger := entry.LoggerName }
  let enc := encode core.fields fields
  let tags : GoMap GoString GoString := []
  let extra : GoMap GoString Any := []
  let tagPrefix := core.activeTagPrefix
  match classify tagPrefix (range enc.Fields) (tags, extra) with
  | none => none
  | some (tags, extra) =>
    let event := if mapLen tags > 0 then { event with Tags := some tags } else event
    let event := if mapLen extra > 0 then { event with Extra := some extra } else event
    let eventID := core.hub.CaptureEvent event
    if eventID = none then
      some ⟨[.CaptureEvent event], some .ErrClientOrScopeUnavailable⟩
    else
      some ⟨[.CaptureEvent event], none⟩

/-- The method `Sync`: flush buffered logs. -/
def SentryCore.Sync (core : SentryCore) : Outcome :=
  let flushed := core.hub.Flush (time.Second * 5)
  if !flushed then
    ⟨[.Flush (time.Second * 5)], some .ErrFlushTimeout⟩
  else
    ⟨[.Flush (time.Second * 5)], none⟩

/-! ## The methods as steps on the receiver

The methods have the pointer receiver `core *SentryCore`.  Here each runs on
the struct that the receiver points to: it reads the struct where the source
reads `core`, and the state after the run is the struct after the call. -/

/-- The method `Check`, run on the struct of the receiver. -/
def SentryCore.CheckOn (entry : zapcore.Entry) (checked : Option CheckedEntry) :
    StateM SentryCore (Option CheckedEntry) := do
  if (← get).LevelEnabler.Enabled entry.Level then
    return AddCore checked entry (.sentry (← get))
  return checked

/-- The method `Write`, run on the struct of the receiver. -/
def SentryCore.WriteOn (NewEvent : sentry.Event)
    (range : GoMap GoString Any → List (GoString × Any))
    (entry : zapcore.Entry) (fields : List zapcore.Field) :
    StateM SentryCore (Option Outcome) := do
  let event := NewEvent
  let event := { event with Message := entry.Message }
  let event := { event with Timestamp := entry.Time }
  let event := { event with Level := mapIndex [] zapToSentryLevels entry.Level }
  let event := { event with Logger := entry.LoggerName }
  let enc := zapcore.NewMapObjectEncoder
  let enc := (← get).fields.foldl (fun enc f => f.AddTo enc) enc
  let enc := fields.foldl (fun enc f => f.AddTo enc) enc
  let tags : GoMap GoString GoString := []
  let extra : GoMap GoString Any := []
  let tagPrefix := (← get).TagPrefix
  let tagPrefix := if tagPrefix = [] then DefaultTagPrefix else tagPrefix
  match classify tagPrefix (range enc.Fields) (tags, extra) with
  | none => return none
  | some (tags, extra) =>
    let event := if mapLen tags > 0 then { event with Tags := some tags } else event
    let event := if mapLen extra > 0 then { event with Extra := some extra } else event
    let eventID := (← get).hub.CaptureEvent event
    if eventID = none then
      return some ⟨[.CaptureEvent event], some .ErrClientOrScopeUnavailable⟩
    return some ⟨[.CaptureEvent event], none⟩

/-- The method `Sync`, run on the struct of the receiver. -/
def SentryCore.SyncOn : StateM SentryCore Outcome := do
  let flushed := (← get).hub.Flush (time.Second * 5)
  if !flushed then
    return ⟨[.Flush (time.Second * 5)], some .ErrFlushTimeout⟩
  return ⟨[.Flush (time.Second * 5)], none⟩

/-- The value `Write` stores for a tag: the string itself when the value is a
string, and the `%v` text of the value otherwise. -/
def tagValue (value : Any) : GoString :=
  match value.assertString with
  | some v => v
  | none => fmt.Sprintf_v value

/-- The event `Write` has built when the loop has left `tags` and `extra`: the
new event with the four entry values set and the non-empty maps attached. -/
def builtEvent (NewEvent : sentry.Event) (entry : zapcore.Entry)
    (tags : GoMap GoString GoString) (extra : GoMap GoString Any) : sentry.Event :=
  { Message := entry.Message
    Timestamp := entry.Time
    Level := mapIndex [] zapToSentryLevels entry.Level
    Logger := entry.LoggerName
    Tags := if mapLen tags > 0 then some tags else NewEvent.Tags
    Extra := if mapLen extra > 0 then some extra else NewEvent.Extra }

/-- The event of sentry-go's own constructor: `NewEvent` allocates the maps,
so tags and extras are present and empty.  The other four are set by `Write`. -/
def sentryNewEvent : sentry.Event := ⟨[], 0, [], [], some [], some []⟩

/-- A hub that accepts every event and flushes in time. -/
def okHub : sentry.Hub := ⟨fun _ => some (utf8 "id"), fun _ => true⟩

/-- A core as `NewCore` returns it, on a hub that accepts every event, with a
filter that admits info and above. -/
def exampleCore : SentryCore := (NewCore okHub ⟨fun l => decide (0 ≤ l)⟩ []).1

/-- An info record. -/
def exampleEntry : zapcore.Entry := ⟨zapcore.InfoLevel, 1572900000, utf8 "app", utf8 "started"⟩

/-- The reading of a key "with one leading character removed": the key is
text, and its first character, of however many bytes, is left out. -/
def withoutFirstCharacter (key : String) : GoString := utf8 ⟨key.data.drop 1⟩

/-- A memory with three arrays: the fields of a core and two argument lists. -/
def exampleMemory : Memory :=
  [ [⟨utf8 "svc", .string (utf8 "api")⟩],
    [⟨utf8 "#env", .string (utf8 "prod")⟩, ⟨utf8 "count", .int64 3⟩],
    [⟨utf8 "#n", .int64 42⟩] ]

/-- The value of the last field with this key in a list of fields, if any. -/
def lastValue (fs : List zapcore.Field) (key : GoString) : Option Any :=
  (fs.reverse.find? (fun f => decide (f.Key = key))).map (fun f => f.Value)

/-- The Go builtin `len(m)` on a map that may be nil: a nil map has length 0. -/
def nilableLen {K V : Type} (m : Option (GoMap K V)) : Nat :=
  match m with
  | none => 0
  | some m => mapLen m

/-- A core with two accumulated fields: the tag `#env = "dev"` and the extra
`svc = "api"`. -/
def contextCore : SentryCore :=
  (NewCore okHub ⟨fun l => decide (0 ≤ l)⟩
    [⟨utf8 "#env", .string (utf8 "dev")⟩, ⟨utf8 "svc", .string (utf8 "api")⟩]).1

/-- A record with a severity above fatal, outside the seven of the table. -/
def unmappedEntry : zapcore.Entry := ⟨6, 1572900000, utf8 "app", utf8 "odd"⟩

/-- Three per-call fields: the tag `#env = "prod"`, the extra `count = 3` and
the tag `#n = 42`. -/
def exampleFields : List zapcore.Field :=
  [⟨utf8 "#env", .string (utf8 "prod")⟩, ⟨utf8 "count", .int64 3⟩, ⟨utf8 "#n", .int64 42⟩]

/-- The level mapping in the words of the specification: debug to debug, info
to info, warn to warning, and error, dpanic, panic and fatal to error; any
other severity to the zero severity, the empty string. -/
def mappedSeverity (level : zapcore.Level) : sentry.Level :=
  if level = zapcore.DebugLevel then utf8 "debug"
  else if level = zapcore.InfoLevel then utf8 "info"
  else if level = zapcore.WarnLevel then utf8 "warning"
  else if level = zapcore.ErrorLevel ∨ level = zapcore.DPanicLevel ∨
      level = zapcore.PanicLevel ∨ level = zapcore.FatalLevel then utf8 "error"
  else []

/-- The number that a text of decimal digits denotes, read from the left. -/
def decimalValue (s : GoString) : Nat :=
  s.foldl (fun acc b => 10 * acc + (b.toNat - 48)) 0

/-- The default text of a value in the words of the specification and of the
`fmt` documentation for `%v`: a string as it is, an integer in base 10 with a
minus sign when negative, a boolean as the word `true` or `false`. -/
def defaultText : Any → GoString
  | .string s => s
  | .int64 i => (if i < 0 then utf8 "-" else []) ++ fmt.decimal i.natAbs
  | .bool b => if b then utf8 "true" else utf8 "false"
  | .other text => text

/-- Six tag fields, one of each kind of value: a positive and a negative
integer, the two booleans, a string, and a structured value with its text. -/
def tagFields : List zapcore.Field :=
  [⟨utf8 "#n", .int64 42⟩, ⟨utf8 "#m", .int64 (-5)⟩, ⟨utf8 "#b", .bool true⟩,
    ⟨utf8 "#f", .bool false⟩, ⟨utf8 "#s", .string (utf8 "x")⟩,
    ⟨utf8 "#o", .other (utf8 "[1 2]")⟩]

/-! ## Go maps -/

theorem mapGet_mapSet {K V : Type} [DecidableEq K] (m : GoMap K V) (k k1 : K) (v : V) :
    mapGet (mapSet m k v) k1 = if k = k1 then some v else mapGet m k1 := by
  induction m with
  | nil => simp [mapSet, mapGet]
  | cons e m ih =>
    obtain ⟨k0, v0⟩ := e
    by_cases h0 : k0 = k
    · subst h0
      by_cases h1 : k0 = k1 <;> simp [mapSet, mapGet, h1]
    · by_cases h1 : k0 = k1
      · subst h1
        have : ¬ k = k0 := fun h => h0 h.symm
        simp [mapSet, mapGet, h0, this]
      · simp [mapSet, mapGet, h0, h1, ih]

theorem mem_keys_mapSet {K V : Type} [DecidableEq K] (m : GoMap K V) (k k1 : K) (v : V) :
    k1 ∈ (mapSet m k v).map Prod.fst ↔ k1 = k ∨ k1 ∈ m.map Prod.fst := by
  induction m with
  | nil => simp [mapSet]
  | cons e m ih =>
    obtain ⟨k0, v0⟩ := e
    by_cases h0 : k0 = k
    · subst h0
      simp [mapSet]
    · simp only [mapSet, h0, if_false, List.map_cons, List.mem_cons, ih]
      tauto

theorem nodup_keys_mapSet {K V : Type} [DecidableEq K] (m : GoMap K V) (k : K) (v : V)
    (h : (m.map Prod.fst).Nodup) : ((mapSet m k v).map Prod.fst).Nodup := by
  induction m with
  | nil => simp [mapSet]
  | cons e m ih =>
    obtain ⟨k0, v0⟩ := e
    simp only [List.map_cons, List.nodup_cons] at h
    by_cases h0 : k0 = k
    · subst h0
      simpa [mapSet] using h
    · have hs : mapSet ((k0, v0) :: m) k v = (k0, v0) :: mapSet m k v := by simp [mapSet, h0]
      rw [hs, List.map_cons, List.nodup_cons, mem_keys_mapSet]
      exact ⟨fun hc => hc.elim h0 h.1, ih h.2⟩

theorem mapGet_eq_some_iff {K V : Type} [DecidableEq K] (m : GoMap K V) (k : K) (v : V)
    (h : (m.map Prod.fst).Nodup) : mapGet m k = some v ↔ (k, v) ∈ m := by
  induction m with
  | nil => simp [mapGet]
  | cons e m ih =>
    obtain ⟨k0, v0⟩ := e
    simp only [List.map_cons, List.nodup_cons] at h
    by_cases h0 : k0 = k
    · subst h0
      have hn : ∀ w, (k0, w) ∉ m := fun w hw => h.1 (List.mem_map_of_mem Prod.fst hw)
      simp only [mapGet, if_true, Option.some.injEq, List.mem_cons, Prod.mk.injEq, true_and]
      constructor
      · intro hv
        exact Or.inl hv.symm
      · rintro (hv | hv)
        · exact hv.symm
        · exact absurd hv (hn v)
    · have h1 : ¬ k = k0 := fun hc => h0 hc.symm
      simp [mapGet, h0, h1, ih h.2]

theorem mapGet_ne_none_of_ne_nil {K V : Type} [DecidableEq K] (m : GoMap K V) (h : m ≠ []) :
    ∃ k v, mapGet m k = some v := by
  cases m with
  | nil => exact absurd rfl h
  | cons e m => exact ⟨e.1, e.2, by simp [mapGet]⟩

/-! ## Prefixes -/

theorem HasPrefix_cons (key p : GoString) (hp : p ≠ [])
    (h : strings.HasPrefix key p = true) :
    ∃ b rest, key = b :: rest ∧ p.head? = some b := by
  cases p with
  | nil => exact absurd rfl hp
  | cons b p1 =>
    cases key with
    | nil => simp [strings.HasPrefix] at h
    | cons c rest =>
      simp only [strings.HasPrefix, List.length_cons, List.take_succ_cons, Bool.and_eq_true,
        decide_eq_true_eq, beq_iff_eq, List.cons.injEq] at h
      exact ⟨c, rest, rfl, by simp [h.2.1]⟩

theorem sliceFrom_of_HasPrefix (key p : GoString) (hp : p ≠ [])
    (h : strings.HasPrefix key p = true) : sliceFrom key 1 = some (key.drop 1) := by
  obtain ⟨b, rest, rfl, _⟩ := HasPrefix_cons key p hp h
  simp [sliceFrom]

theorem drop_one_injective (k1 k2 p : GoString) (hp : p ≠ [])
    (h1 : strings.HasPrefix k1 p = true) (h2 : strings.HasPrefix k2 p = true)
    (h : k1.drop 1 = k2.drop 1) : k1 = k2 := by
  obtain ⟨b1, r1, rfl, e1⟩ := HasPrefix_cons k1 p hp h1
  obtain ⟨b2, r2, rfl, e2⟩ := HasPrefix_cons k2 p hp h2
  have hb : b1 = b2 := by
    rw [e1] at e2
    exact Option.some.inj e2
  simp only [List.drop_succ_cons, List.drop_zero] at h
  rw [hb, h]

theorem activeTagPrefix_ne_nil (core : SentryCore) : core.activeTagPrefix ≠ [] := by
  unfold SentryCore.activeTagPrefix
  split
  · decide
  · assumption

/-! ## The classification loop -/

theorem classify_tag (p key : GoString) (value : Any) (rest : List (GoString × Any))
    (tags : GoMap GoString GoString) (extra : GoMap GoString Any) (hp : p ≠ [])
    (h : strings.HasPrefix key p = true) :
    classify p ((key, value) :: rest) (tags, extra)
      = classify p rest (mapSet tags (key.drop 1) (tagValue value), extra) := by
  have hs := sliceFrom_of_HasPrefix key p hp h
  cases hv : value.assertString <;> simp [classify, h, hs, hv, tagValue]

theorem classify_extra (p key : GoString) (value : Any) (rest : List (GoString × Any))
    (tags : GoMap GoString GoString) (extra : GoMap GoString Any)
    (h : strings.HasPrefix key p = false) :
    classify p ((key, value) :: rest) (tags, extra)
      = classify p rest (tags, mapSet extra key value) := by
  simp [classify, h]

theorem classify_total (p : GoString) (hp : p ≠ []) (es : List (GoString × Any)) :
    ∀ acc, ∃ r, classify p es acc = some r := by
  induction es with
  | nil => exact fun acc => ⟨acc, rfl⟩
  | cons e es ih =>
    rintro ⟨tags, extra⟩
    obtain ⟨key, value⟩ := e
    cases h : strings.HasPrefix key p
    · rw [classify_extra p key value es tags extra h]
      exact ih _
    · rw [classify_tag p key value es tags extra hp h]
      exact ih _

theorem classify_append (p : GoString) (es1 es2 : List (GoString × Any)) :
    ∀ acc, classify p (es1 ++ es2) acc = (classify p es1 acc).bind (classify p es2) := by
  induction es1 with
  | nil => exact fun acc => rfl
  | cons e es1 ih =>
    rintro ⟨tags, extra⟩
    obtain ⟨key, value⟩ := e
    simp only [List.cons_append, classify]
    split
    · split <;> split <;> simp [ih]
    · exact ih _

theorem classify_lookup (p : GoString) (hp : p ≠ []) (es : List (GoString × Any)) :
    (es.map Prod.fst).Nodup → ∀ tags extra, classify p es ([], []) = some (tags, extra) →
      (∀ t s, mapGet tags t = some s ↔
        ∃ key value, (key, value) ∈ es ∧ strings.HasPrefix key p = true ∧
          key.drop 1 = t ∧ tagValue value = s) ∧
      (∀ k v, mapGet extra k = some v ↔ (k, v) ∈ es ∧ strings.HasPrefix k p = false) := by
  induction es using List.reverseRecOn with
  | nil =>
    intro _ tags extra h
    simp only [classify, Option.some.injEq, Prod.mk.injEq] at h
    obtain ⟨rfl, rfl⟩ := h
    simp [mapGet]
  | append_singleton es e ih =>
    intro hnd tags extra h
    obtain ⟨key, value⟩ := e
    rw [List.map_append, List.nodup_append] at hnd
    obtain ⟨hes, -, hdis⟩ := hnd
    have hkey : ∀ w, (key, w) ∉ es := fun w hw =>
      hdis (List.mem_map_of_mem Prod.fst hw) (by simp)
    obtain ⟨⟨t0, x0⟩, h0⟩ := classify_total p hp es ([], [])
    obtain ⟨iht, ihx⟩ := ih hes t0 x0 h0
    rw [classify_append, h0] at h
    simp only [Option.bind] at h
    cases hpre : strings.HasPrefix key p
    · rw [classify_extra p key value [] t0 x0 hpre] at h
      simp only [classify, Option.some.injEq, Prod.mk.injEq] at h
      obtain ⟨rfl, rfl⟩ := h
      constructor
      · intro t s
        rw [iht]
        constructor
        · rintro ⟨k, v, hm, h1, h2, h3⟩
          exact ⟨k, v, List.mem_append_left _ hm, h1, h2, h3⟩
        · rintro ⟨k, v, hm, h1, h2, h3⟩
          rcases List.mem_append.1 hm with hm | hm
          · exact ⟨k, v, hm, h1, h2, h3⟩
          · simp only [List.mem_singleton, Prod.mk.injEq] at hm
            rw [hm.1, hpre] at h1
            exact absurd h1 (by simp)
      · intro k v
        rw [mapGet_mapSet]
        by_cases hk : key = k
        · subst hk
          simp only [if_true, Option.some.injEq, List.mem_append, List.mem_singleton,
            Prod.mk.injEq, true_and]
          constructor
          · intro hv
            exact ⟨Or.inr hv.symm, hpre⟩
          · rintro ⟨hm | hm, -⟩
            · exact absurd hm (hkey v)
            · exact hm.symm
        · simp only [hk, if_false, ihx, List.mem_append, List.mem_singleton, Prod.mk.injEq]
          constructor
          · rintro ⟨hm, h1⟩
            exact ⟨Or.inl hm, h1⟩
          · rintro ⟨hm | hm, h1⟩
            · exact ⟨hm, h1⟩
            · exact absurd hm.1.symm hk
    · rw [classify_tag p key value [] t0 x0 hp hpre] at h
      simp only [classify, Option.some.injEq, Prod.mk.injEq] at h
      obtain ⟨rfl, rfl⟩ := h
      constructor
      · intro t s
        rw [mapGet_mapSet]
        by_cases hk : key.drop 1 = t
        · subst hk
          simp only [if_true, Option.some.injEq]
          constructor
          · intro hv
            exact ⟨key, value, List.mem_append_right _ (by simp), hpre, rfl, hv⟩
          · rintro ⟨k, v, hm, h1, h2, h3⟩
            have hkk : k = key := drop_one_injective k key p hp h1 hpre h2
            subst hkk
            rcases List.mem_append.1 hm with hm | hm
            · exact absurd hm (hkey v)
            · simp only [List.mem_singleton, Prod.mk.injEq, true_and] at hm
              rw [← hm]
              exact h3
        · simp only [hk, if_false, iht]
          constructor
          · rintro ⟨k, v, hm, h1, h2, h3⟩
            exact ⟨k, v, List.mem_append_left _ hm, h1, h2, h3⟩
          · rintro ⟨k, v, hm, h1, h2, h3⟩
            rcases List.mem_append.1 hm with hm | hm
            · exact ⟨k, v, hm, h1, h2, h3⟩
            · simp only [List.mem_singleton, Prod.mk.injEq] at hm
              rw [hm.1] at h2
              exact absurd h2 hk
      · intro k v
        rw [ihx]
        constructor
        · rintro ⟨hm, h1⟩
          exact ⟨List.mem_append_left _ hm, h1⟩
        · rintro ⟨hm, h1⟩
          rcases List.mem_append.1 hm with hm | hm
          · exact ⟨hm, h1⟩
          · simp only [List.mem_singleton, Prod.mk.injEq] at hm
            rw [hm.1, hpre] at h1
            exact absurd h1 (by simp)

/-! ## The merged field map -/

theorem nodup_keys_foldl_AddTo (fs : List zapcore.Field) :
    ∀ enc : zapcore.MapObjectEncoder, (enc.Fields.map Prod.fst).Nodup →
      ((fs.foldl (fun enc f => f.AddTo enc) enc).Fields.map Prod.fst).Nodup := by
  induction fs with
  | nil => exact fun _ h => h
  | cons f fs ih =>
    intro enc h
    exact ih _ (nodup_keys_mapSet enc.Fields f.Key f.Value h)

theorem nodup_keys_encode (accumulated fields : List zapcore.Field) :
    ((encode accumulated fields).Fields.map Prod.fst).Nodup := by
  unfold encode
  exact nodup_keys_foldl_AddTo fields _
    (nodup_keys_foldl_AddTo accumulated _ (by simp [zapcore.NewMapObjectEncoder]))

theorem mem_range_iff (range : GoMap GoString Any → List (GoString × Any))
    (hrange : ∀ m, (range m).Perm m) (accumulated fields : List zapcore.Field)
    (key : GoString) (value : Any) :
    (key, value) ∈ range (encode accumulated fields).Fields
      ↔ mapGet (encode accumulated fields).Fields key = some value := by
  rw [mapGet_eq_some_iff _ _ _ (nodup_keys_encode accumulated fields)]
  exact (hrange _).mem_iff

theorem nodup_keys_range (range : GoMap GoString Any → List (GoString × Any))
    (hrange : ∀ m, (range m).Perm m) (accumulated fields : List zapcore.Field) :
    ((range (encode accumulated fields).Fields).map Prod.fst).Nodup :=
  (((hrange _).map Prod.fst).nodup_iff).2 (nodup_keys_encode accumulated fields)

/-! ## Write -/

theorem Write_eq (NewEvent : sentry.Event) (range : GoMap GoString Any → List (GoString × Any))
    (core : SentryCore) (entry : zapcore.Entry) (fields : List zapcore.Field) :
    ∃ tags extra,
      classify core.activeTagPrefix (range (encode core.fields fields).Fields) ([], [])
        = some (tags, extra) ∧
      core.Write NewEvent range entry fields
        = some ⟨[.CaptureEvent (builtEvent NewEvent entry tags extra)],
            if core.hub.CaptureEvent (builtEvent NewEvent entry tags extra) = none then
              some .ErrClientOrScopeUnavailable else none⟩ := by
  obtain ⟨⟨tags, extra⟩, h⟩ := classify_total core.activeTagPrefix (activeTagPrefix_ne_nil core)
    (range (encode core.fields fields).Fields) ([], [])
  refine ⟨tags, extra, h, ?_⟩
  simp only [SentryCore.Write, h, builtEvent]
  by_cases ht : mapLen tags > 0 <;> by_cases hx : mapLen extra > 0 <;>
    simp only [ht, hx, if_true, if_false] <;> split <;> rfl

theorem nilableGet_built_Tags (NewEvent : sentry.Event) (entry : zapcore.Entry)
    (tags : GoMap GoString GoString) (extra : GoMap GoString Any)
    (hTags : ∀ k, nilableGet NewEvent.Tags k = none) (t : GoString) :
    nilableGet (builtEvent NewEvent entry tags extra).Tags t = mapGet tags t := by
  cases tags with
  | nil => simp [builtEvent, mapLen, hTags, mapGet]
  | cons e tags => simp [builtEvent, mapLen, nilableGet]

theorem nilableGet_built_Extra (NewEvent : sentry.Event) (entry : zapcore.Entry)
    (tags : GoMap GoString GoString) (extra : GoMap GoString Any)
    (hExtra : ∀ k, nilableGet NewEvent.Extra k = none) (k : GoString) :
    nilableGet (builtEvent NewEvent entry tags extra).Extra k = mapGet extra k := by
  cases extra with
  | nil => simp [builtEvent, mapLen, hExtra, mapGet]
  | cons e extra => simp [builtEvent, mapLen, nilableGet]

theorem goCopy_make {α : Type} (zero : α) (xs : List α) (n : Nat) :
    goCopy (goMake zero (xs.length + n)) xs = xs ++ goMake zero n := by
  simp [goCopy, goMake]

theorem goCopyAt_append {α : Type} (zero : α) (xs ys : List α) :
    goCopyAt (xs ++ goMake zero ys.length) xs.length ys = xs ++ ys := by
  simp [goCopyAt, goCopy, goMake]

theorem With_fields (core : SentryCore) (fields : List zapcore.Field) :
    (core.With fields).fields = core.fields ++ fields := by
  simp only [SentryCore.With, goCopy_make, goCopyAt_append]

/-! ## The level table -/

theorem mapGet_zapToSentryLevels_none (l : Int) (h : l < (-1 : Int) ∨ (5 : Int) < l) :
    mapGet zapToSentryLevels l = none := by
  have h1 : ¬ (-1 : Int) = l := by omega
  have h2 : ¬ (0 : Int) = l := by omega
  have h3 : ¬ (1 : Int) = l := by omega
  have h4 : ¬ (2 : Int) = l := by omega
  have h5 : ¬ (3 : Int) = l := by omega
  have h6 : ¬ (4 : Int) = l := by omega
  have h7 : ¬ (5 : Int) = l := by omega
  simp [zapToSentryLevels, mapGet, zapcore.DebugLevel, zapcore.InfoLevel, zapcore.WarnLevel,
    zapcore.ErrorLevel, zapcore.DPanicLevel, zapcore.PanicLevel, zapcore.FatalLevel,
    h1, h2, h3, h4, h5, h6, h7]

theorem mapIndex_zapToSentryLevels (l : Int) :
    mapIndex [] zapToSentryLevels l = mappedSeverity l := by
  by_cases h1 : l = -1
  · subst h1; decide
  by_cases h2 : l = 0
  · subst h2; decide
  by_cases h3 : l = 1
  · subst h3; decide
  by_cases h4 : l = 2
  · subst h4; decide
  by_cases h5 : l = 3
  · subst h5; decide
  by_cases h6 : l = 4
  · subst h6; decide
  by_cases h7 : l = 5
  · subst h7; decide
  have hout : l < (-1 : Int) ∨ (5 : Int) < l := by omega
  rw [mapIndex, mapGet_zapToSentryLevels_none l hout]
  simp [mappedSeverity, zapcore.DebugLevel, zapcore.InfoLevel, zapcore.WarnLevel,
    zapcore.ErrorLevel, zapcore.DPanicLevel, zapcore.PanicLevel, zapcore.FatalLevel,
    h1, h2, h3, h4, h5, h6, h7]

theorem Write_level (NewEvent : sentry.Event)
    (range : GoMap GoString Any → List (GoString × Any))
    (core : SentryCore) (entry : zapcore.Entry) (fields : List zapcore.Field) :
    ∃ event err,
      core.Write NewEvent range entry fields = some ⟨[.CaptureEvent event], err⟩ ∧
      event.Level = mappedSeverity entry.Level := by
  obtain ⟨tags, extra, -, hw⟩ := Write_eq NewEvent range core entry fields
  exact ⟨_, _, hw, mapIndex_zapToSentryLevels entry.Level⟩

/-! ## Decimal text -/

theorem digitChar_byte (k : Nat) (hk : k < 10) :
    ((Nat.digitChar k).toNat.toUInt8).toNat = 48 + k := by
  interval_cases k <;> rfl

theorem toDigitsCore_append (fuel : Nat) :
    ∀ n ds, Nat.toDigitsCore 10 fuel n ds = Nat.toDigitsCore 10 fuel n [] ++ ds := by
  induction fuel with
  | zero => intro n ds; rfl
  | succ fuel ih =>
    intro n ds
    simp only [Nat.toDigitsCore]
    split
    · rfl
    · rw [ih (n / 10) (Nat.digitChar (n % 10) :: ds), ih (n / 10) [Nat.digitChar (n % 10)]]
      simp

theorem toDigitsCore_spec (fuel : Nat) :
    ∀ n, n < fuel →
      decimalValue ((Nat.toDigitsCore 10 fuel n []).map (fun c => c.toNat.toUInt8)) = n ∧
      (∀ b ∈ (Nat.toDigitsCore 10 fuel n []).map (fun c => c.toNat.toUInt8),
        48 ≤ b.toNat ∧ b.toNat ≤ 57) ∧
      (n ≠ 0 →
        ((Nat.toDigitsCore 10 fuel n []).map (fun c => c.toNat.toUInt8)).head? ≠ some 48) ∧
      Nat.toDigitsCore 10 fuel n [] ≠ [] := by
  induction fuel with
  | zero => intro n h; omega
  | succ fuel ih =>
    intro n hn
    have hd := digitChar_byte (n % 10) (Nat.mod_lt n (by decide))
    simp only [Nat.toDigitsCore]
    split
    · rename_i h0
      have hlt : n % 10 = n := by omega
      refine ⟨?_, ?_, ?_, by simp⟩
      · simp only [decimalValue, List.map_cons, List.map_nil, List.foldl_cons, List.foldl_nil,
          hd]
        omega
      · intro b hb
        simp only [List.map_cons, List.map_nil, List.mem_singleton] at hb
        rw [hb, hd]
        omega
      · intro hne
        simp only [List.map_cons, List.map_nil, List.head?_cons, ne_eq, Option.some.injEq]
        intro hc
        have h48 : (48 : UInt8).toNat = 48 := rfl
        have := congrArg UInt8.toNat hc
        rw [hd, h48] at this
        omega
    · rename_i h0
      obtain ⟨hv, hr, hh, hne⟩ := ih (n / 10) (by omega)
      rw [toDigitsCore_append]
      refine ⟨?_, ?_, ?_, by simp [hne]⟩
      · unfold decimalValue at hv ⊢
        rw [List.map_append, List.foldl_append, hv]
        simp only [List.map_cons, List.map_nil, List.foldl_cons, List.foldl_nil, hd]
        omega
      · intro b hb
        rw [List.map_append, List.mem_append] at hb
        rcases hb with hb | hb
        · exact hr b hb
        · simp only [List.map_cons, List.map_nil, List.mem_singleton] at hb
          rw [hb, hd]
          omega
      · intro _
        rw [List.map_append]
        cases hl : Nat.toDigitsCore 10 fuel (n / 10) [] with
        | nil => exact absurd hl hne
        | cons c cs =>
          rw [hl] at hh
          simpa using hh h0

theorem decimal_spec (n : Nat) :
    decimalValue (fmt.decimal n) = n ∧ (∀ b ∈ fmt.decimal n, 48 ≤ b.toNat ∧ b.toNat ≤ 57) ∧
      (n ≠ 0 → (fmt.decimal n).head? ≠ some 48) ∧ fmt.decimal n ≠ [] := by
  obtain ⟨h1, h2, h3, h4⟩ := toDigitsCore_spec (n + 1) n (Nat.lt_succ_self n)
  exact ⟨h1, h2, h3, by simpa [fmt.decimal, Nat.toDigits] using h4⟩

theorem tagValue_eq_defaultText (value : Any) : tagValue value = defaultText value := by
  cases value with
  | string s => rfl
  | int64 i =>
    cases i with
    | ofNat n => simp [tagValue, Any.assertString, fmt.Sprintf_v, defaultText]
    | negSucc n =>
      have hm : utf8 "-" = [45] := by decide
      simp [tagValue, Any.assertString, fmt.Sprintf_v, defaultText, Int.negSucc_lt_zero, hm]
  | bool b => cases b <;> rfl
  | other text => rfl

/-! ## The claims -/

/-- C1: `Write` classifies each key of the merged field map by the active tag
prefix alone.  The tags of the event handed to the hub are exactly the merged
entries whose key starts with the active prefix, and its extras are exactly the
other merged entries, each under its original key with its original value; the
condition reads the key only, whatever the value.  This holds for every order
in which the run time visits the map, for a new event that carries no tag and
no extra of its own. -/
theorem Write_classifies_by_prefix (NewEvent : sentry.Event)
    (range : GoMap GoString Any → List (GoString × Any))
    (core : SentryCore) (entry : zapcore.Entry) (fields : List zapcore.Field)
    (hrange : ∀ m, (range m).Perm m)
    (hTags : ∀ k, nilableGet NewEvent.Tags k = none)
    (hExtra : ∀ k, nilableGet NewEvent.Extra k = none) :
    ∃ event err,
      core.Write NewEvent range entry fields = some ⟨[.CaptureEvent event], err⟩ ∧
      (∀ t s, nilableGet event.Tags t = some s ↔
        ∃ key value, mapGet (encode core.fields fields).Fields key = some value ∧
          strings.HasPrefix key core.activeTagPrefix = true ∧
          sliceFrom key 1 = some t ∧ tagValue value = s) ∧
      (∀ key value, nilableGet event.Extra key = some value ↔
        mapGet (encode core.fields fields).Fields key = some value ∧
          strings.HasPrefix key core.activeTagPrefix = false) := by
  obtain ⟨tags, extra, hc, hw⟩ := Write_eq NewEvent range core entry fields
  obtain ⟨ht, hx⟩ := classify_lookup core.activeTagPrefix (activeTagPrefix_ne_nil core) _
    (nodup_keys_range range hrange core.fields fields) tags extra hc
  refine ⟨_, _, hw, ?_, ?_⟩
  · intro t s
    rw [nilableGet_built_Tags NewEvent entry tags extra hTags, ht]
    constructor
    · rintro ⟨key, value, hm, h1, h2, h3⟩
      refine ⟨key, value, (mem_range_iff range hrange _ _ _ _).1 hm, h1, ?_, h3⟩
      rw [sliceFrom_of_HasPrefix key _ (activeTagPrefix_ne_nil core) h1, h2]
    · rintro ⟨key, value, hm, h1, h2, h3⟩
      refine ⟨key, value, (mem_range_iff range hrange _ _ _ _).2 hm, h1, ?_, h3⟩
      rw [sliceFrom_of_HasPrefix key _ (activeTagPrefix_ne_nil core) h1] at h2
      exact Option.some.inj h2
  · intro key value
    rw [nilableGet_built_Extra NewEvent entry tags extra hExtra, hx,
      mem_range_iff range hrange]

/-- C1, at the fields `#env = "prod"` and `count = 3` with the default prefix:
the event carries the tag `env = "prod"` and the extra `count = 3`. -/
theorem Write_classifies_by_prefix_witness :
    (∀ m : GoMap GoString Any, (id m).Perm m) ∧
    (∀ k, nilableGet sentryNewEvent.Tags k = none) ∧
    (∀ k, nilableGet sentryNewEvent.Extra k = none) ∧
    (∃ event err,
      exampleCore.Write sentryNewEvent id exampleEntry
          [⟨utf8 "#env", .string (utf8 "prod")⟩, ⟨utf8 "count", .int64 3⟩]
        = some ⟨[.CaptureEvent event], err⟩ ∧
      (∀ t s, nilableGet event.Tags t = some s ↔
        ∃ key value,
          mapGet (encode exampleCore.fields
            [⟨utf8 "#env", .string (utf8 "prod")⟩, ⟨utf8 "count", .int64 3⟩]).Fields key
              = some value ∧
          strings.HasPrefix key exampleCore.activeTagPrefix = true ∧
          sliceFrom key 1 = some t ∧ tagValue value = s) ∧
      (∀ key value, nilableGet event.Extra key = some value ↔
        mapGet (encode exampleCore.fields
          [⟨utf8 "#env", .string (utf8 "prod")⟩, ⟨utf8 "count", .int64 3⟩]).Fields key
            = some value ∧
          strings.HasPrefix key exampleCore.activeTagPrefix = false)) ∧
    exampleCore.Write sentryNewEvent id exampleEntry
        [⟨utf8 "#env", .string (utf8 "prod")⟩, ⟨utf8 "count", .int64 3⟩]
      = some ⟨[.CaptureEvent ⟨utf8 "started", 1572900000, utf8 "info", utf8 "app",
          some [(utf8 "env", utf8 "prod")], some [(utf8 "count", .int64 3)]⟩], none⟩ :=
  ⟨fun m => List.Perm.refl m, fun _ => rfl, fun _ => rfl,
    Write_classifies_by_prefix sentryNewEvent id exampleCore exampleEntry _
      (fun m => List.Perm.refl m) (fun _ => rfl) (fun _ => rfl),
    by decide⟩

/-- C2: the severity mapping that `Write` uses is total on the seven source
severities and sends debug to debug, info to info, warn to warning, error to
error, and dpanic, panic and fatal to the target of error.  The table has
these entries, and for a record of each of the seven severities the event
that `Write` hands to the hub has that target severity, whatever the core,
the fields, the new event and the order of the map; in general the severity
of the event is the mapping of the specification applied to the severity of
the record. -/
theorem zapToSentryLevels_mapping :
    mapGet zapToSentryLevels zapcore.DebugLevel = some sentry.LevelDebug ∧
    mapGet zapToSentryLevels zapcore.InfoLevel = some sentry.LevelInfo ∧
    mapGet zapToSentryLevels zapcore.WarnLevel = some sentry.LevelWarning ∧
    mapGet zapToSentryLevels zapcore.ErrorLevel = some sentry.LevelError ∧
    mapGet zapToSentryLevels zapcore.DPanicLevel = mapGet zapToSentryLevels zapcore.ErrorLevel ∧
    mapGet zapToSentryLevels zapcore.PanicLevel = mapGet zapToSentryLevels zapcore.ErrorLevel ∧
    mapGet zapToSentryLevels zapcore.FatalLevel = mapGet zapToSentryLevels zapcore.ErrorLevel ∧
    sentry.LevelWarning = utf8 "warning" ∧
    (∀ (NewEvent : sentry.Event) (range : GoMap GoString Any → List (GoString × Any))
        (core : SentryCore) (entry : zapcore.Entry) (fields : List zapcore.Field),
      ∃ event err,
        core.Write NewEvent range entry fields = some ⟨[.CaptureEvent event], err⟩ ∧
        event.Level = mapIndex [] zapToSentryLevels entry.Level) ∧
    (∀ (NewEvent : sentry.Event) (range : GoMap GoString Any → List (GoString × Any))
        (core : SentryCore) (entry : zapcore.Entry) (fields : List zapcore.Field),
      (∃ event err,
        core.Write NewEvent range entry fields = some ⟨[.CaptureEvent event], err⟩ ∧
        event.Level = mappedSeverity entry.Level) ∧
      (∃ event err,
        core.Write NewEvent range { entry with Level := zapcore.DebugLevel } fields
          = some ⟨[.CaptureEvent event], err⟩ ∧ event.Level = utf8 "debug") ∧
      (∃ event err,
        core.Write NewEvent range { entry with Level := zapcore.InfoLevel } fields
          = some ⟨[.CaptureEvent event], err⟩ ∧ event.Level = utf8 "info") ∧
      (∃ event err,
        core.Write NewEvent range { entry with Level := zapcore.WarnLevel } fields
          = some ⟨[.CaptureEvent event], err⟩ ∧ event.Level = utf8 "warning") ∧
      (∃ event err,
        core.Write NewEvent range { entry with Level := zapcore.ErrorLevel } fields
          = some ⟨[.CaptureEvent event], err⟩ ∧ event.Level = utf8 "error") ∧
      (∃ event err,
        core.Write NewEvent range { entry with Level := zapcore.DPanicLevel } fields
          = some ⟨[.CaptureEvent event], err⟩ ∧ event.Level = utf8 "error") ∧
      (∃ event err,
        core.Write NewEvent range { entry with Level := zapcore.PanicLevel } fields
          = some ⟨[.CaptureEvent event], err⟩ ∧ event.Level = utf8 "error") ∧
      (∃ event err,
        core.Write NewEvent range { entry with Level := zapcore.FatalLevel } fields
          = some ⟨[.CaptureEvent event], err⟩ ∧ event.Level = utf8 "error")) ∧
    exampleCore.Write sentryNewEvent id
        ⟨zapcore.FatalLevel, 1572900000, utf8 "app", utf8 "down"⟩ []
      = some ⟨[.CaptureEvent ⟨utf8 "down", 1572900000, utf8 "error", utf8 "app",
          some [], some []⟩], none⟩ ∧
    exampleCore.Write sentryNewEvent id
        ⟨zapcore.WarnLevel, 1572900000, utf8 "app", utf8 "slow"⟩ []
      = some ⟨[.CaptureEvent ⟨utf8 "slow", 1572900000, utf8 "warning", utf8 "app",
          some [], some []⟩], none⟩ := by
  refine ⟨by decide, by decide, by decide, by decide, by decide, by decide, by decide, rfl,
    ?_, ?_, by decide, by decide⟩
  · intro NewEvent range core entry fields
    obtain ⟨tags, extra, -, hw⟩ := Write_eq NewEvent range core entry fields
    exact ⟨_, _, hw, rfl⟩
  · intro NewEvent range core entry fields
    refine ⟨Write_level NewEvent range core entry fields, ?_, ?_, ?_, ?_, ?_, ?_, ?_⟩
    · obtain ⟨ev, er, hw, hl⟩ :=
        Write_level NewEvent range core { entry with Level := zapcore.DebugLevel } fields
      exact ⟨ev, er, hw,
        hl.trans (show mappedSeverity zapcore.DebugLevel = utf8 "debug" by decide)⟩
    · obtain ⟨ev, er, hw, hl⟩ :=
        Write_level NewEvent range core { entry with Level := zapcore.InfoLevel } fields
      exact ⟨ev, er, hw,
        hl.trans (show mappedSeverity zapcore.InfoLevel = utf8 "info" by decide)⟩
    · obtain ⟨ev, er, hw, hl⟩ :=
        Write_level NewEvent range core { entry with Level := zapcore.WarnLevel } fields
      exact ⟨ev, er, hw,
        hl.trans (show mappedSeverity zapcore.WarnLevel = utf8 "warning" by decide)⟩
    · obtain ⟨ev, er, hw, hl⟩ :=
        Write_level NewEvent range core { entry with Level := zapcore.ErrorLevel } fields
      exact ⟨ev, er, hw,
        hl.trans (show mappedSeverity zapcore.ErrorLevel = utf8 "error" by decide)⟩
    · obtain ⟨ev, er, hw, hl⟩ :=
        Write_level NewEvent range core { entry with Level := zapcore.DPanicLevel } fields
      exact ⟨ev, er, hw,
        hl.trans (show mappedSeverity zapcore.DPanicLevel = utf8 "error" by decide)⟩
    · obtain ⟨ev, er, hw, hl⟩ :=
        Write_level NewEvent range core { entry with Level := zapcore.PanicLevel } fields
      exact ⟨ev, er, hw,
        hl.trans (show mappedSeverity zapcore.PanicLevel = utf8 "error" by decide)⟩
    · obtain ⟨ev, er, hw, hl⟩ :=
        Write_level NewEvent range core { entry with Level := zapcore.FatalLevel } fields
      exact ⟨ev, er, hw,
        hl.trans (show mappedSeverity zapcore.FatalLevel = utf8 "error" by decide)⟩

/-- C3: `With` returns a core whose accumulated fields are those of the receiver
followed by the argument, in order: the length is the sum of the two lengths,
and each position holds the element of the receiver or of the argument. -/
theorem With_appends_fields (core : SentryCore) (fields : List zapcore.Field) :
    (core.With fields).fields = core.fields ++ fields ∧
    (core.With fields).fields.length = core.fields.length + fields.length ∧
    (∀ i, (core.With fields).fields[i]? =
      if i < core.fields.length then core.fields[i]? else fields[i - core.fields.length]?) := by
  rw [With_fields]
  refine ⟨rfl, List.length_append _ _, ?_⟩
  intro i
  split
  · next h => exact List.getElem?_append_left h
  · next h => exact List.getElem?_append_right (Nat.le_of_not_lt h)

/-- C5: `Write` never panics and makes exactly one capture; it returns
`ErrClientOrScopeUnavailable` exactly when the capture yields no identifier,
and nil exactly when it yields one, whatever the fields, the new event and the
order of the map. -/
theorem Write_fails_iff_no_identifier (NewEvent : sentry.Event)
    (range : GoMap GoString Any → List (GoString × Any))
    (core : SentryCore) (entry : zapcore.Entry) (fields : List zapcore.Field) :
    ∃ event err,
      core.Write NewEvent range entry fields = some ⟨[.CaptureEvent event], err⟩ ∧
      (err = some .ErrClientOrScopeUnavailable ↔ core.hub.CaptureEvent event = none) ∧
      (err = none ↔ ∃ id, core.hub.CaptureEvent event = some id) := by
  obtain ⟨tags, extra, -, hw⟩ := Write_eq NewEvent range core entry fields
  refine ⟨_, _, hw, ?_, ?_⟩
  · cases core.hub.CaptureEvent (builtEvent NewEvent entry tags extra) <;> simp
  · cases core.hub.CaptureEvent (builtEvent NewEvent entry tags extra) <;> simp

/-- C6: for every merged field whose key starts with the active prefix, the
event carries a tag under the key without its first byte, and the value of
that tag is the field's value itself when it is a string and the default
text of the value otherwise: an integer in base 10, with a minus sign when
negative, a boolean as `true` or `false`, any other value as the text `%v`
prints.  The decimal text of a number consists of digits only, denotes the
number and has no leading zero. -/
theorem Write_tag_value (NewEvent : sentry.Event)
    (range : GoMap GoString Any → List (GoString × Any))
    (core : SentryCore) (entry : zapcore.Entry) (fields : List zapcore.Field)
    (hrange : ∀ m, (range m).Perm m)
    (hTags : ∀ k, nilableGet NewEvent.Tags k = none) :
    (∀ n : Nat, decimalValue (fmt.decimal n) = n ∧
      (∀ b ∈ fmt.decimal n, 48 ≤ b.toNat ∧ b.toNat ≤ 57) ∧
      (n ≠ 0 → (fmt.decimal n).head? ≠ some 48) ∧ fmt.decimal n ≠ []) ∧
    ∃ event err,
      core.Write NewEvent range entry fields = some ⟨[.CaptureEvent event], err⟩ ∧
      ∀ key value, mapGet (encode core.fields fields).Fields key = some value →
        strings.HasPrefix key core.activeTagPrefix = true →
        ∃ t s, sliceFrom key 1 = some t ∧ nilableGet event.Tags t = some s ∧
          (∀ str, value = .string str → s = str) ∧
          (value.assertString = none → s = fmt.Sprintf_v value) ∧
          (∀ n : Nat, value = .int64 n → s = fmt.decimal n) ∧
          s = defaultText value ∧
          (∀ i : Int, value = .int64 i →
            s = (if i < 0 then utf8 "-" else []) ++ fmt.decimal i.natAbs) ∧
          (value = .bool true → s = utf8 "true") ∧
          (value = .bool false → s = utf8 "false") ∧
          (∀ text, value = .other text → s = text) := by
  refine ⟨decimal_spec, ?_⟩
  obtain ⟨tags, extra, hc, hw⟩ := Write_eq NewEvent range core entry fields
  obtain ⟨ht, -⟩ := classify_lookup core.activeTagPrefix (activeTagPrefix_ne_nil core) _
    (nodup_keys_range range hrange core.fields fields) tags extra hc
  refine ⟨_, _, hw, ?_⟩
  intro key value hm hpre
  refine ⟨key.drop 1, tagValue value,
    sliceFrom_of_HasPrefix key _ (activeTagPrefix_ne_nil core) hpre, ?_, ?_, ?_, ?_,
    tagValue_eq_defaultText value, ?_, ?_, ?_, ?_⟩
  · rw [nilableGet_built_Tags NewEvent entry tags extra hTags, ht]
    exact ⟨key, value, (mem_range_iff range hrange _ _ _ _).2 hm, hpre, rfl, rfl⟩
  · rintro str rfl
    rfl
  · intro h
    simp [tagValue, h]
  · rintro n rfl
    rfl
  · rintro i rfl
    rw [tagValue_eq_defaultText]
    rfl
  · rintro rfl
    rw [tagValue_eq_defaultText]
    rfl
  · rintro rfl
    rw [tagValue_eq_defaultText]
    rfl
  · rintro text rfl
    rfl

/-- C6, at the fields `#n = 42`, `#m = -5`, `#b = true`, `#f = false`,
`#s = "x"` and `#o` of another type, with the default prefix: the event
carries the tags `n = "42"`, `m = "-5"`, `b = "true"`, `f = "false"`,
`s = "x"` and `o` with its text. -/
theorem Write_tag_value_witness :
    (∀ m : GoMap GoString Any, (id m).Perm m) ∧
    (∀ k, nilableGet sentryNewEvent.Tags k = none) ∧
    ((∀ n : Nat, decimalValue (fmt.decimal n) = n ∧
      (∀ b ∈ fmt.decimal n, 48 ≤ b.toNat ∧ b.toNat ≤ 57) ∧
      (n ≠ 0 → (fmt.decimal n).head? ≠ some 48) ∧ fmt.decimal n ≠ []) ∧
    ∃ event err,
      exampleCore.Write sentryNewEvent id exampleEntry tagFields
        = some ⟨[.CaptureEvent event], err⟩ ∧
      ∀ key value,
        mapGet (encode exampleCore.fields tagFields).Fields key = some value →
        strings.HasPrefix key exampleCore.activeTagPrefix = true →
        ∃ t s, sliceFrom key 1 = some t ∧ nilableGet event.Tags t = some s ∧
          (∀ str, value = .string str → s = str) ∧
          (value.assertString = none → s = fmt.Sprintf_v value) ∧
          (∀ n : Nat, value = .int64 n → s = fmt.decimal n) ∧
          s = defaultText value ∧
          (∀ i : Int, value = .int64 i →
            s = (if i < 0 then utf8 "-" else []) ++ fmt.decimal i.natAbs) ∧
          (value = .bool true → s = utf8 "true") ∧
          (value = .bool false → s = utf8 "false") ∧
          (∀ text, value = .other text → s = text)) ∧
    fmt.decimal 42 = utf8 "42" ∧
    fmt.decimal 0 = utf8 "0" ∧
    fmt.decimal 1572900000 = utf8 "1572900000" ∧
    exampleCore.Write sentryNewEvent id exampleEntry [⟨utf8 "#n", .int64 42⟩]
      = some ⟨[.CaptureEvent ⟨utf8 "started", 1572900000, utf8 "info", utf8 "app",
          some [(utf8 "n", utf8 "42")], some []⟩], none⟩ ∧
    exampleCore.Write sentryNewEvent id exampleEntry tagFields
      = some ⟨[.CaptureEvent ⟨utf8 "started", 1572900000, utf8 "info", utf8 "app",
          some [(utf8 "n", utf8 "42"), (utf8 "m", utf8 "-5"), (utf8 "b", utf8 "true"),
            (utf8 "f", utf8 "false"), (utf8 "s", utf8 "x"), (utf8 "o", utf8 "[1 2]")],
          some []⟩], none⟩ :=
  ⟨fun m => List.Perm.refl m, fun _ => rfl,
    Write_tag_value sentryNewEvent id exampleCore exampleEntry _
      (fun m => List.Perm.refl m) (fun _ => rfl),
    by decide, by decide, by decide, by decide, by decide⟩

theorem utf8_cons_ascii (c : Char) (cs : List Char) (h : c.val ≤ 127) :
    utf8 ⟨c :: cs⟩ = c.val.toUInt8 :: utf8 ⟨cs⟩ := by
  simp [utf8, String.utf8EncodeChar, h]

/-- C7: the tag key is the key without its first byte, `key[1:]`.  With the
prefix `%%` and the field `%%x = "v"` the tag key is `%x`, one character
removed and not the whole prefix, as the claim says; whenever the first
character of the key is ASCII, removing the first byte removes that
character.  With the prefix `é`, one character of two bytes, the key `éx`
has the prefix, and the tag key is the key without the first byte of that
character, the bytes `A9 78`, which is not the key without its first
character, `x`. -/
theorem Write_tag_key_not_without_first_character :
    strings.HasPrefix (utf8 "éx") (utf8 "é") = true ∧
    ({ exampleCore with TagPrefix := utf8 "é" }).Write sentryNewEvent id exampleEntry
        [⟨utf8 "éx", .string (utf8 "v")⟩]
      = some ⟨[.CaptureEvent ⟨utf8 "started", 1572900000, utf8 "info", utf8 "app",
          some [([0xA9, 0x78], utf8 "v")], some []⟩], none⟩ ∧
    withoutFirstCharacter "éx" = utf8 "x" ∧
    ([0xA9, 0x78] : GoString) ≠ withoutFirstCharacter "éx" ∧
    ({ exampleCore with TagPrefix := utf8 "%%" }).Write sentryNewEvent id exampleEntry
        [⟨utf8 "%%x", .string (utf8 "v")⟩]
      = some ⟨[.CaptureEvent ⟨utf8 "started", 1572900000, utf8 "info", utf8 "app",
          some [(utf8 "%x", utf8 "v")], some []⟩], none⟩ ∧
    withoutFirstCharacter "%%x" = utf8 "%x" ∧
    (∀ (c : Char) (cs : List Char), c.val ≤ 127 →
      sliceFrom (utf8 ⟨c :: cs⟩) 1 = some (withoutFirstCharacter ⟨c :: cs⟩)) := by
  refine ⟨by decide, by decide, by decide, by decide, by decide, by decide, ?_⟩
  intro c cs h
  rw [utf8_cons_ascii c cs h]
  simp [sliceFrom, withoutFirstCharacter]

/-- C8, as stated, fails on the event of sentry-go's constructor: with no
accumulated and no per-call field, the event handed to the hub still has its
tags map and its extras map, both present and empty, not absent. -/
theorem Write_without_fields_maps_present :
    exampleCore.fields = [] ∧
    exampleCore.Write sentryNewEvent id exampleEntry []
      = some ⟨[.CaptureEvent ⟨utf8 "started", 1572900000, utf8 "info", utf8 "app",
          some [], some []⟩], none⟩ ∧
    ¬ (∃ event err,
        exampleCore.Write sentryNewEvent id exampleEntry []
          = some ⟨[.CaptureEvent event], err⟩ ∧
        event.Tags = none ∧ event.Extra = none) := by
  have hw : exampleCore.Write sentryNewEvent id exampleEntry []
      = some ⟨[.CaptureEvent ⟨utf8 "started", 1572900000, utf8 "info", utf8 "app",
          some [], some []⟩], none⟩ := by decide
  refine ⟨by decide, hw, ?_⟩
  rintro ⟨event, err, h, ht, -⟩
  rw [hw] at h
  simp only [Option.some.injEq, Outcome.mk.injEq, List.cons.injEq,
    sentry.HubCall.CaptureEvent.injEq, and_true] at h
  rw [← h.1] at ht
  exact absurd ht (by simp)

/-- C8, amended: `Write` assigns the tags map of the event if and only if at
least one tag was produced, and the extras map if and only if at least one
extra was produced; a map that is not assigned stays as the new event had
it.  With no accumulated and no per-call field the event therefore has the
tags and extras of the new event, untouched. -/
theorem Write_attaches_nonempty_maps (NewEvent : sentry.Event)
    (range : GoMap GoString Any → List (GoString × Any))
    (core : SentryCore) (entry : zapcore.Entry) (fields : List zapcore.Field)
    (hrange : ∀ m, (range m).Perm m) :
    ∃ event err tags extra,
      classify core.activeTagPrefix (range (encode core.fields fields).Fields) ([], [])
        = some (tags, extra) ∧
      core.Write NewEvent range entry fields = some ⟨[.CaptureEvent event], err⟩ ∧
      event.Tags = (if tags = [] then NewEvent.Tags else some tags) ∧
      event.Extra = (if extra = [] then NewEvent.Extra else some extra) ∧
      (tags ≠ [] ↔ ∃ key value, mapGet (encode core.fields fields).Fields key = some value ∧
        strings.HasPrefix key core.activeTagPrefix = true) ∧
      (extra ≠ [] ↔ ∃ key value, mapGet (encode core.fields fields).Fields key = some value ∧
        strings.HasPrefix key core.activeTagPrefix = false) ∧
      (core.fields = [] → fields = [] →
        event.Tags = NewEvent.Tags ∧ event.Extra = NewEvent.Extra) := by
  obtain ⟨tags, extra, hc, hw⟩ := Write_eq NewEvent range core entry fields
  obtain ⟨ht, hx⟩ := classify_lookup core.activeTagPrefix (activeTagPrefix_ne_nil core) _
    (nodup_keys_range range hrange core.fields fields) tags extra hc
  have hT : (builtEvent NewEvent entry tags extra).Tags
      = (if tags = [] then NewEvent.Tags else some tags) := by
    cases tags <;> simp [builtEvent, mapLen]
  have hX : (builtEvent NewEvent entry tags extra).Extra
      = (if extra = [] then NewEvent.Extra else some extra) := by
    cases extra <;> simp [builtEvent, mapLen]
  have htags : tags ≠ [] ↔ ∃ key value,
      mapGet (encode core.fields fields).Fields key = some value ∧
        strings.HasPrefix key core.activeTagPrefix = true := by
    constructor
    · intro hne
      obtain ⟨t, s, hts⟩ := mapGet_ne_none_of_ne_nil tags hne
      obtain ⟨key, value, hm, hpre, -, -⟩ := (ht t s).1 hts
      exact ⟨key, value, (mem_range_iff range hrange _ _ _ _).1 hm, hpre⟩
    · rintro ⟨key, value, hm, hpre⟩ hnil
      have := (ht (key.drop 1) (tagValue value)).2
        ⟨key, value, (mem_range_iff range hrange _ _ _ _).2 hm, hpre, rfl, rfl⟩
      rw [hnil] at this
      simp [mapGet] at this
  have hextra : extra ≠ [] ↔ ∃ key value,
      mapGet (encode core.fields fields).Fields key = some value ∧
        strings.HasPrefix key core.activeTagPrefix = false := by
    constructor
    · intro hne
      obtain ⟨k, v, hkv⟩ := mapGet_ne_none_of_ne_nil extra hne
      obtain ⟨hm, hpre⟩ := (hx k v).1 hkv
      exact ⟨k, v, (mem_range_iff range hrange _ _ _ _).1 hm, hpre⟩
    · rintro ⟨key, value, hm, hpre⟩ hnil
      have := (hx key value).2 ⟨(mem_range_iff range hrange _ _ _ _).2 hm, hpre⟩
      rw [hnil] at this
      simp [mapGet] at this
  refine ⟨_, _, tags, extra, hc, hw, hT, hX, htags, hextra, ?_⟩
  intro h1 h2
  have hempty : ∀ key, mapGet (encode core.fields fields).Fields key = none := by
    intro key
    rw [h1, h2]
    rfl
  have ht0 : tags = [] := by
    by_contra hne
    obtain ⟨key, value, hm, -⟩ := htags.1 hne
    rw [hempty key] at hm
    exact absurd hm (by simp)
  have hx0 : extra = [] := by
    by_contra hne
    obtain ⟨key, value, hm, -⟩ := hextra.1 hne
    rw [hempty key] at hm
    exact absurd hm (by simp)
  rw [hT, hX, ht0, hx0]
  exact ⟨rfl, rfl⟩

/-- C8, amended, at a core without fields and one tag field: the tags map is
assigned, and the extras map stays the present, empty map of the new event. -/
theorem Write_attaches_nonempty_maps_witness :
    (∀ m : GoMap GoString Any, (id m).Perm m) ∧
    (∃ event err tags extra,
      classify exampleCore.activeTagPrefix
          (id (encode exampleCore.fields [⟨utf8 "#env", .string (utf8 "prod")⟩]).Fields)
          ([], [])
        = some (tags, extra) ∧
      exampleCore.Write sentryNewEvent id exampleEntry [⟨utf8 "#env", .string (utf8 "prod")⟩]
        = some ⟨[.CaptureEvent event], err⟩ ∧
      event.Tags = (if tags = [] then sentryNewEvent.Tags else some tags) ∧
      event.Extra = (if extra = [] then sentryNewEvent.Extra else some extra) ∧
      (tags ≠ [] ↔ ∃ key value,
        mapGet (encode exampleCore.fields
          [⟨utf8 "#env", .string (utf8 "prod")⟩]).Fields key = some value ∧
        strings.HasPrefix key exampleCore.activeTagPrefix = true) ∧
      (extra ≠ [] ↔ ∃ key value,
        mapGet (encode exampleCore.fields
          [⟨utf8 "#env", .string (utf8 "prod")⟩]).Fields key = some value ∧
        strings.HasPrefix key exampleCore.activeTagPrefix = false) ∧
      (exampleCore.fields = [] →
        ([⟨utf8 "#env", .string (utf8 "prod")⟩] : List zapcore.Field) = [] →
        event.Tags = sentryNewEvent.Tags ∧ event.Extra = sentryNewEvent.Extra)) ∧
    exampleCore.Write sentryNewEvent id exampleEntry [⟨utf8 "#env", .string (utf8 "prod")⟩]
      = some ⟨[.CaptureEvent ⟨utf8 "started", 1572900000, utf8 "info", utf8 "app",
          some [(utf8 "env", utf8 "prod")], some []⟩], none⟩ ∧
    exampleCore.Write ⟨[], 0, [], [], none, none⟩ id exampleEntry []
      = some ⟨[.CaptureEvent ⟨utf8 "started", 1572900000, utf8 "info", utf8 "app",
          none, none⟩], none⟩ :=
  ⟨fun m => List.Perm.refl m,
    Write_attaches_nonempty_maps sentryNewEvent id exampleCore exampleEntry _
      (fun m => List.Perm.refl m),
    by decide, by decide⟩

/-- C9: `Sync` calls the flush of the hub exactly once, with a timeout of five
seconds, and returns `ErrFlushTimeout` exactly when the hub reports that it
did not finish in time, and nil otherwise. -/
theorem Sync_flushes_once_five_seconds (core : SentryCore) :
    core.Sync.calls = [.Flush 5000000000] ∧
    time.Second * 5 = 5 * 1000000000 ∧
    (core.Sync.err = some .ErrFlushTimeout ↔ core.hub.Flush 5000000000 = false) ∧
    (core.Sync.err = none ↔ core.hub.Flush 5000000000 = true) := by
  have h5 : time.Second * 5 = 5000000000 := by decide
  simp only [SentryCore.Sync, h5]
  cases core.hub.Flush 5000000000 <;> simp

/-- C10: `Check` decides by the level filter on the severity of the record
alone.  When the filter enables that severity the result is the checked
entry with this core registered last (a nil checked entry becomes one for
this record); when it does not, the checked entry is returned unchanged.
Two records of the same severity are admitted alike. -/
theorem Check_by_level_filter (core : SentryCore) (entry : zapcore.Entry)
    (checked : Option CheckedEntry) :
    core.Check entry checked =
      (if core.LevelEnabler.Enabled entry.Level then
        some ⟨(checked.getD ⟨entry, []⟩).Entry,
          (checked.getD ⟨entry, []⟩).cores ++ [.sentry core]⟩
      else checked) ∧
    (∀ other : zapcore.Entry, other.Level = entry.Level →
      (core.Check other checked = checked ↔ core.Check entry checked = checked)) := by
  constructor
  · unfold SentryCore.Check AddCore
    cases checked <;> rfl
  · intro other h
    unfold SentryCore.Check AddCore
    rw [h]
    cases core.LevelEnabler.Enabled entry.Level <;> cases checked <;> simp

/-! ## With, in memory -/

theorem getD_append_new (mem : Memory) (arr : List zapcore.Field) :
    (mem ++ [arr]).getD mem.length [] = arr := by
  induction mem with
  | nil => rfl
  | cons a mem ih => simp

theorem getD_append_old (mem : Memory) (arr : List zapcore.Field) (i : Nat)
    (h : i < mem.length) : (mem ++ [arr]).getD i [] = mem.getD i [] := by
  induction mem generalizing i with
  | nil => simp at h
  | cons a mem ih =>
    cases i with
    | zero => rfl
    | succ i =>
      simp only [List.length_cons, Nat.add_lt_add_iff_right] at h
      simpa using ih i h

theorem set_append_new (mem : Memory) (arr new : List zapcore.Field) :
    (mem ++ [arr]).set mem.length new = mem ++ [new] := by
  induction mem with
  | nil => rfl
  | cons a mem ih => simp

theorem load_append_old (mem : Memory) (arr : List zapcore.Field) (s : Slice)
    (h : Memory.holds mem s) : Memory.load (mem ++ [arr]) s = Memory.load mem s := by
  unfold Memory.load
  rw [getD_append_old mem arr s.array h.1]

theorem holds_append_old (mem : Memory) (arr : List zapcore.Field) (s : Slice)
    (h : Memory.holds mem s) : Memory.holds (mem ++ [arr]) s := by
  unfold Memory.holds at h ⊢
  rw [getD_append_old mem arr s.array h.1, List.length_append]
  exact ⟨by omega, h.2⟩

theorem length_load (mem : Memory) (s : Slice) (h : Memory.holds mem s) :
    (Memory.load mem s).length = s.len := by
  unfold Memory.load
  rw [List.length_take, List.length_drop]
  have := h.2
  omega

theorem WithInMemory_eq (mem : Memory) (coreFields fields : Slice)
    (hc : Memory.holds mem coreFields) (hf : Memory.holds mem fields) :
    WithInMemory mem coreFields fields
      = (mem ++ [Memory.load mem coreFields ++ Memory.load mem fields],
          ⟨mem.length, 0, coreFields.len + fields.len⟩) := by
  have lc := length_load mem coreFields hc
  have lf := length_load mem fields hf
  simp only [WithInMemory, Memory.make, Memory.copy, Slice.sliceFrom]
  rw [getD_append_new, load_append_old mem _ coreFields hc, set_append_new, getD_append_new,
    load_append_old mem _ fields hf, set_append_new]
  congr 2
  simp [goMake, ← lc, ← lf]

theorem load_new (mem : Memory) (arr : List zapcore.Field) :
    Memory.load (mem ++ [arr]) ⟨mem.length, 0, arr.length⟩ = arr := by
  simp [Memory.load, getD_append_new]

theorem holds_new (mem : Memory) (arr : List zapcore.Field) :
    Memory.holds (mem ++ [arr]) ⟨mem.length, 0, arr.length⟩ := by
  simp [Memory.holds, getD_append_new]

theorem WithInMemory_frame (mem : Memory) (coreFields fields s : Slice)
    (hc : Memory.holds mem coreFields) (hf : Memory.holds mem fields)
    (hs : Memory.holds mem s) :
    Memory.holds (WithInMemory mem coreFields fields).1 s ∧
    Memory.load (WithInMemory mem coreFields fields).1 s = Memory.load mem s := by
  rw [WithInMemory_eq mem coreFields fields hc hf]
  exact ⟨holds_append_old mem _ s hs, load_append_old mem _ s hs⟩

theorem WithInMemory_result (mem : Memory) (coreFields fields : Slice)
    (hc : Memory.holds mem coreFields) (hf : Memory.holds mem fields) :
    Memory.holds (WithInMemory mem coreFields fields).1 (WithInMemory mem coreFields fields).2 ∧
    Memory.load (WithInMemory mem coreFields fields).1 (WithInMemory mem coreFields fields).2
      = Memory.load mem coreFields ++ Memory.load mem fields := by
  have lc := length_load mem coreFields hc
  have lf := length_load mem fields hf
  rw [WithInMemory_eq mem coreFields fields hc hf]
  have hl : coreFields.len + fields.len
      = (Memory.load mem coreFields ++ Memory.load mem fields).length := by
    rw [List.length_append, lc, lf]
  simp only [hl]
  exact ⟨holds_new mem _, load_new mem _⟩

/-- C4: `With` is non-mutating.  In a memory that holds the fields `a` of a core
and three argument lists `f`, `g` and `h`, let `b` be the fields of the clone
that `With(f)` makes of the core, then `c` those of a second clone of the core
by `With(g)`, then `d` those of a clone of the first clone by `With(h)`.
After each call the core still has the fields it had, every clone made
earlier still has its own, and the arguments are as they were: `b` is `a`
then `f`, `c` is `a` then `g` with nothing of `f` or `h`, and `d` is `a`, `f`,
`h`.  The fields of the clone are those that `With` computes on values. -/
theorem With_does_not_mutate (core : SentryCore) (mem : Memory) (a f g h : Slice)
    (ha : Memory.holds mem a) (hf : Memory.holds mem f) (hg : Memory.holds mem g)
    (hh : Memory.holds mem h) :
    let first := WithInMemory mem a f
    let second := WithInMemory first.1 a g
    let third := WithInMemory second.1 first.2 h
    (Memory.load first.1 a = Memory.load mem a ∧
      Memory.load second.1 a = Memory.load mem a ∧
      Memory.load third.1 a = Memory.load mem a) ∧
    (Memory.load first.1 first.2 = Memory.load mem a ++ Memory.load mem f ∧
      Memory.load second.1 first.2 = Memory.load mem a ++ Memory.load mem f ∧
      Memory.load third.1 first.2 = Memory.load mem a ++ Memory.load mem f) ∧
    (Memory.load second.1 second.2 = Memory.load mem a ++ Memory.load mem g ∧
      Memory.load third.1 second.2 = Memory.load mem a ++ Memory.load mem g) ∧
    Memory.load third.1 third.2
      = (Memory.load mem a ++ Memory.load mem f) ++ Memory.load mem h ∧
    (Memory.load third.1 f = Memory.load mem f ∧ Memory.load third.1 g = Memory.load mem g ∧
      Memory.load third.1 h = Memory.load mem h) ∧
    Memory.load first.1 first.2
      = ({ core with fields := Memory.load mem a }.With (Memory.load mem f)).fields := by
  intro first second third
  -- the first call
  obtain ⟨hb1, lb1⟩ := WithInMemory_result mem a f ha hf
  obtain ⟨ha1, la1⟩ := WithInMemory_frame mem a f a ha hf ha
  obtain ⟨hf1, lf1⟩ := WithInMemory_frame mem a f f ha hf hf
  obtain ⟨hg1, lg1⟩ := WithInMemory_frame mem a f g ha hf hg
  obtain ⟨hh1, lh1⟩ := WithInMemory_frame mem a f h ha hf hh
  -- the second call
  obtain ⟨hc2, lc2⟩ := WithInMemory_result first.1 a g ha1 hg1
  obtain ⟨ha2, la2⟩ := WithInMemory_frame first.1 a g a ha1 hg1 ha1
  obtain ⟨hb2, lb2⟩ := WithInMemory_frame first.1 a g first.2 ha1 hg1 hb1
  obtain ⟨hf2, lf2⟩ := WithInMemory_frame first.1 a g f ha1 hg1 hf1
  obtain ⟨hg2, lg2⟩ := WithInMemory_frame first.1 a g g ha1 hg1 hg1
  obtain ⟨hh2, lh2⟩ := WithInMemory_frame first.1 a g h ha1 hg1 hh1
  -- the third call
  obtain ⟨-, ld3⟩ := WithInMemory_result second.1 first.2 h hb2 hh2
  obtain ⟨-, la3⟩ := WithInMemory_frame second.1 first.2 h a hb2 hh2 ha2
  obtain ⟨-, lb3⟩ := WithInMemory_frame second.1 first.2 h first.2 hb2 hh2 hb2
  obtain ⟨-, lc3⟩ := WithInMemory_frame second.1 first.2 h second.2 hb2 hh2 hc2
  obtain ⟨-, lf3⟩ := WithInMemory_frame second.1 first.2 h f hb2 hh2 hf2
  obtain ⟨-, lg3⟩ := WithInMemory_frame second.1 first.2 h g hb2 hh2 hg2
  obtain ⟨-, lh3⟩ := WithInMemory_frame second.1 first.2 h h hb2 hh2 hh2
  refine ⟨⟨la1, la2.trans la1, la3.trans (la2.trans la1)⟩,
    ⟨lb1, lb2.trans lb1, lb3.trans (lb2.trans lb1)⟩,
    ⟨lc2.trans (by rw [la1, lg1]), lc3.trans (lc2.trans (by rw [la1, lg1]))⟩,
    ld3.trans (by rw [lb2, lb1, lh2, lh1]),
    ⟨lf3.trans (lf2.trans lf1), lg3.trans (lg2.trans lg1), lh3.trans (lh2.trans lh1)⟩, ?_⟩
  rw [lb1, With_fields]

/-- C4, in a memory of three arrays, with the core on the first array and the
other two as arguments. -/
theorem With_does_not_mutate_witness :
    Memory.holds exampleMemory ⟨0, 0, 1⟩ ∧ Memory.holds exampleMemory ⟨1, 0, 2⟩ ∧
    Memory.holds exampleMemory ⟨2, 0, 1⟩ ∧ Memory.holds exampleMemory ⟨1, 1, 1⟩ ∧
    (let first := WithInMemory exampleMemory ⟨0, 0, 1⟩ ⟨1, 0, 2⟩
    let second := WithInMemory first.1 ⟨0, 0, 1⟩ ⟨2, 0, 1⟩
    let third := WithInMemory second.1 first.2 ⟨1, 1, 1⟩
    (Memory.load first.1 ⟨0, 0, 1⟩ = Memory.load exampleMemory ⟨0, 0, 1⟩ ∧
      Memory.load second.1 ⟨0, 0, 1⟩ = Memory.load exampleMemory ⟨0, 0, 1⟩ ∧
      Memory.load third.1 ⟨0, 0, 1⟩ = Memory.load exampleMemory ⟨0, 0, 1⟩) ∧
    (Memory.load first.1 first.2
        = Memory.load exampleMemory ⟨0, 0, 1⟩ ++ Memory.load exampleMemory ⟨1, 0, 2⟩ ∧
      Memory.load second.1 first.2
        = Memory.load exampleMemory ⟨0, 0, 1⟩ ++ Memory.load exampleMemory ⟨1, 0, 2⟩ ∧
      Memory.load third.1 first.2
        = Memory.load exampleMemory ⟨0, 0, 1⟩ ++ Memory.load exampleMemory ⟨1, 0, 2⟩) ∧
    (Memory.load second.1 second.2
        = Memory.load exampleMemory ⟨0, 0, 1⟩ ++ Memory.load exampleMemory ⟨2, 0, 1⟩ ∧
      Memory.load third.1 second.2
        = Memory.load exampleMemory ⟨0, 0, 1⟩ ++ Memory.load exampleMemory ⟨2, 0, 1⟩) ∧
    Memory.load third.1 third.2
      = (Memory.load exampleMemory ⟨0, 0, 1⟩ ++ Memory.load exampleMemory ⟨1, 0, 2⟩)
          ++ Memory.load exampleMemory ⟨1, 1, 1⟩ ∧
    (Memory.load third.1 ⟨1, 0, 2⟩ = Memory.load exampleMemory ⟨1, 0, 2⟩ ∧
      Memory.load third.1 ⟨2, 0, 1⟩ = Memory.load exampleMemory ⟨2, 0, 1⟩ ∧
      Memory.load third.1 ⟨1, 1, 1⟩ = Memory.load exampleMemory ⟨1, 1, 1⟩) ∧
    Memory.load first.1 first.2
      = ({ exampleCore with fields := Memory.load exampleMemory ⟨0, 0, 1⟩ }.With
          (Memory.load exampleMemory ⟨1, 0, 2⟩)).fields) ∧
    Memory.load (WithInMemory exampleMemory ⟨0, 0, 1⟩ ⟨1, 0, 2⟩).1
        (WithInMemory exampleMemory ⟨0, 0, 1⟩ ⟨1, 0, 2⟩).2
      = [⟨utf8 "svc", .string (utf8 "api")⟩, ⟨utf8 "#env", .string (utf8 "prod")⟩,
          ⟨utf8 "count", .int64 3⟩] :=
  ⟨by decide, by decide, by decide, by decide,
    With_does_not_mutate exampleCore exampleMemory ⟨0, 0, 1⟩ ⟨1, 0, 2⟩ ⟨2, 0, 1⟩ ⟨1, 1, 1⟩
      (by decide) (by decide) (by decide) (by decide),
    by decide⟩

/-! ## Last occurrences -/

theorem lastValue_append_singleton (fs : List zapcore.Field) (f : zapcore.Field)
    (key : GoString) :
    lastValue (fs ++ [f]) key = if f.Key = key then some f.Value else lastValue fs key := by
  unfold lastValue
  rw [List.reverse_append, List.reverse_singleton, List.singleton_append, List.find?_cons]
  by_cases h : f.Key = key <;> simp [h]

theorem lastValue_append (fs gs : List zapcore.Field) (key : GoString) :
    lastValue (fs ++ gs) key = (lastValue gs key).or (lastValue fs key) := by
  induction gs using List.reverseRecOn with
  | nil => simp [lastValue]
  | append_singleton gs g ih =>
    rw [← List.append_assoc, lastValue_append_singleton, lastValue_append_singleton, ih]
    by_cases h : g.Key = key <;> simp [h]

theorem mapGet_foldl_AddTo (fs : List zapcore.Field) (key : GoString) :
    mapGet (fs.foldl (fun enc f => f.AddTo enc) zapcore.NewMapObjectEncoder).Fields key
      = lastValue fs key := by
  induction fs using List.reverseRecOn with
  | nil => rfl
  | append_singleton fs f ih =>
    rw [List.foldl_append, lastValue_append_singleton, ← ih]
    simp only [List.foldl_cons, List.foldl_nil]
    exact mapGet_mapSet _ f.Key key f.Value

theorem encode_eq_foldl (accumulated fields : List zapcore.Field) :
    encode accumulated fields
      = (accumulated ++ fields).foldl (fun enc f => f.AddTo enc) zapcore.NewMapObjectEncoder := by
  simp only [encode, List.foldl_append]

theorem mapGet_encode (accumulated fields : List zapcore.Field) (key : GoString) :
    mapGet (encode accumulated fields).Fields key = lastValue (accumulated ++ fields) key := by
  rw [encode_eq_foldl, mapGet_foldl_AddTo]

theorem Write_lookup (NewEvent : sentry.Event)
    (range : GoMap GoString Any → List (GoString × Any))
    (core : SentryCore) (entry : zapcore.Entry) (fields : List zapcore.Field)
    (hrange : ∀ m, (range m).Perm m)
    (hTags : ∀ k, nilableGet NewEvent.Tags k = none)
    (hExtra : ∀ k, nilableGet NewEvent.Extra k = none) :
    ∃ tags extra,
      core.Write NewEvent range entry fields
        = some ⟨[.CaptureEvent (builtEvent NewEvent entry tags extra)],
            if core.hub.CaptureEvent (builtEvent NewEvent entry tags extra) = none then
              some .ErrClientOrScopeUnavailable else none⟩ ∧
      (∀ t s, nilableGet (builtEvent NewEvent entry tags extra).Tags t = some s ↔
        ∃ key value, mapGet (encode core.fields fields).Fields key = some value ∧
          strings.HasPrefix key core.activeTagPrefix = true ∧
          key.drop 1 = t ∧ tagValue value = s) ∧
      (∀ key value, nilableGet (builtEvent NewEvent entry tags extra).Extra key = some value ↔
        mapGet (encode core.fields fields).Fields key = some value ∧
          strings.HasPrefix key core.activeTagPrefix = false) := by
  obtain ⟨tags, extra, hc, hw⟩ := Write_eq NewEvent range core entry fields
  obtain ⟨ht, hx⟩ := classify_lookup core.activeTagPrefix (activeTagPrefix_ne_nil core) _
    (nodup_keys_range range hrange core.fields fields) tags extra hc
  refine ⟨tags, extra, hw, ?_, ?_⟩
  · intro t s
    rw [nilableGet_built_Tags NewEvent entry tags extra hTags, ht]
    constructor
    · rintro ⟨key, value, hm, h⟩
      exact ⟨key, value, (mem_range_iff range hrange _ _ _ _).1 hm, h⟩
    · rintro ⟨key, value, hm, h⟩
      exact ⟨key, value, (mem_range_iff range hrange _ _ _ _).2 hm, h⟩
  · intro key value
    rw [nilableGet_built_Extra NewEvent entry tags extra hExtra, hx,
      mem_range_iff range hrange]

/-- C11: `Write` merges the accumulated fields and then the per-call fields into
one mapping by key in which a later entry overwrites an earlier one: the
merged value of a key is the value of its last occurrence in accumulated ++
per-call, so a per-call field overrides an accumulated field of the same
key.  For every key that occurs, the event carries its last value, as a tag
(and then no extra under that key) when the key has the active prefix and as
an extra otherwise; every tag and every extra of the event is the last value
of some key, so no earlier occurrence is carried. -/
theorem Write_merges_last_wins (NewEvent : sentry.Event)
    (range : GoMap GoString Any → List (GoString × Any))
    (core : SentryCore) (entry : zapcore.Entry) (fields : List zapcore.Field)
    (hrange : ∀ m, (range m).Perm m)
    (hTags : ∀ k, nilableGet NewEvent.Tags k = none)
    (hExtra : ∀ k, nilableGet NewEvent.Extra k = none) :
    (∀ key, mapGet (encode core.fields fields).Fields key
      = lastValue (core.fields ++ fields) key) ∧
    (∀ key, lastValue (core.fields ++ fields) key
      = (lastValue fields key).or (lastValue core.fields key)) ∧
    ∃ event err,
      core.Write NewEvent range entry fields = some ⟨[.CaptureEvent event], err⟩ ∧
      (∀ key value, lastValue (core.fields ++ fields) key = some value →
        (strings.HasPrefix key core.activeTagPrefix = true →
          nilableGet event.Tags (key.drop 1) = some (tagValue value) ∧
          nilableGet event.Extra key = none) ∧
        (strings.HasPrefix key core.activeTagPrefix = false →
          nilableGet event.Extra key = some value)) ∧
      (∀ t s, nilableGet event.Tags t = some s →
        ∃ key value, lastValue (core.fields ++ fields) key = some value ∧
          strings.HasPrefix key core.activeTagPrefix = true ∧
          key.drop 1 = t ∧ tagValue value = s) ∧
      (∀ key value, nilableGet event.Extra key = some value →
        lastValue (core.fields ++ fields) key = some value ∧
          strings.HasPrefix key core.activeTagPrefix = false) := by
  refine ⟨mapGet_encode core.fields fields, lastValue_append core.fields fields, ?_⟩
  obtain ⟨tags, extra, hw, ht, hx⟩ :=
    Write_lookup NewEvent range core entry fields hrange hTags hExtra
  refine ⟨_, _, hw, ?_, ?_, ?_⟩
  · intro key value hl
    rw [← mapGet_encode] at hl
    constructor
    · intro hpre
      refine ⟨(ht _ _).2 ⟨key, value, hl, hpre, rfl, rfl⟩, ?_⟩
      cases hx0 : nilableGet (builtEvent NewEvent entry tags extra).Extra key with
      | none => rfl
      | some v =>
        have := ((hx key v).1 hx0).2
        rw [hpre] at this
        exact absurd this (by simp)
    · intro hpre
      exact (hx key value).2 ⟨hl, hpre⟩
  · intro t s h
    obtain ⟨key, value, hm, h1, h2, h3⟩ := (ht t s).1 h
    exact ⟨key, value, by rw [← mapGet_encode]; exact hm, h1, h2, h3⟩
  · intro key value h
    obtain ⟨hm, h1⟩ := (hx key value).1 h
    exact ⟨by rw [← mapGet_encode]; exact hm, h1⟩

/-- C11, at a core with the accumulated fields `#env = "dev"` and
`svc = "api"` and the per-call fields `#env = "prod"` and `count = 3`: the
event carries the tag `env = "prod"` of the per-call field, once, next to
the extras `svc` and `count`. -/
theorem Write_merges_last_wins_witness :
    (∀ m : GoMap GoString Any, (id m).Perm m) ∧
    (∀ k, nilableGet sentryNewEvent.Tags k = none) ∧
    (∀ k, nilableGet sentryNewEvent.Extra k = none) ∧
    ((∀ key, mapGet (encode contextCore.fields
        [⟨utf8 "#env", .string (utf8 "prod")⟩, ⟨utf8 "count", .int64 3⟩]).Fields key
      = lastValue (contextCore.fields
          ++ [⟨utf8 "#env", .string (utf8 "prod")⟩, ⟨utf8 "count", .int64 3⟩]) key) ∧
    (∀ key, lastValue (contextCore.fields
          ++ [⟨utf8 "#env", .string (utf8 "prod")⟩, ⟨utf8 "count", .int64 3⟩]) key
      = (lastValue [⟨utf8 "#env", .string (utf8 "prod")⟩, ⟨utf8 "count", .int64 3⟩] key).or
          (lastValue contextCore.fields key)) ∧
    ∃ event err,
      contextCore.Write sentryNewEvent id exampleEntry
          [⟨utf8 "#env", .string (utf8 "prod")⟩, ⟨utf8 "count", .int64 3⟩]
        = some ⟨[.CaptureEvent event], err⟩ ∧
      (∀ key value, lastValue (contextCore.fields
          ++ [⟨utf8 "#env", .string (utf8 "prod")⟩, ⟨utf8 "count", .int64 3⟩]) key
            = some value →
        (strings.HasPrefix key contextCore.activeTagPrefix = true →
          nilableGet event.Tags (key.drop 1) = some (tagValue value) ∧
          nilableGet event.Extra key = none) ∧
        (strings.HasPrefix key contextCore.activeTagPrefix = false →
          nilableGet event.Extra key = some value)) ∧
      (∀ t s, nilableGet event.Tags t = some s →
        ∃ key value, lastValue (contextCore.fields
            ++ [⟨utf8 "#env", .string (utf8 "prod")⟩, ⟨utf8 "count", .int64 3⟩]) key
              = some value ∧
          strings.HasPrefix key contextCore.activeTagPrefix = true ∧
          key.drop 1 = t ∧ tagValue value = s) ∧
      (∀ key value, nilableGet event.Extra key = some value →
        lastValue (contextCore.fields
            ++ [⟨utf8 "#env", .string (utf8 "prod")⟩, ⟨utf8 "count", .int64 3⟩]) key
              = some value ∧
          strings.HasPrefix key contextCore.activeTagPrefix = false)) ∧
    lastValue (contextCore.fields
        ++ [⟨utf8 "#env", .string (utf8 "prod")⟩, ⟨utf8 "count", .int64 3⟩]) (utf8 "#env")
      = some (.string (utf8 "prod")) ∧
    contextCore.Write sentryNewEvent id exampleEntry
        [⟨utf8 "#env", .string (utf8 "prod")⟩, ⟨utf8 "count", .int64 3⟩]
      = some ⟨[.CaptureEvent ⟨utf8 "started", 1572900000, utf8 "info", utf8 "app",
          some [(utf8 "env", utf8 "prod")],
          some [(utf8 "svc", .string (utf8 "api")), (utf8 "count", .int64 3)]⟩], none⟩ :=
  ⟨fun m => List.Perm.refl m, fun _ => rfl, fun _ => rfl,
    Write_merges_last_wins sentryNewEvent id contextCore exampleEntry _
      (fun m => List.Perm.refl m) (fun _ => rfl) (fun _ => rfl),
    by decide, by decide⟩

/-- C12: the tag prefix that `Write` classifies by is the `TagPrefix` of the
core when that is not empty and the default `#` when it is empty; a core as
`NewCore` returns it has an empty `TagPrefix` and so classifies by `#`. -/
theorem Write_active_tag_prefix (NewEvent : sentry.Event)
    (range : GoMap GoString Any → List (GoString × Any))
    (core : SentryCore) (entry : zapcore.Entry) (fields : List zapcore.Field)
    (hrange : ∀ m, (range m).Perm m)
    (hTags : ∀ k, nilableGet NewEvent.Tags k = none)
    (hExtra : ∀ k, nilableGet NewEvent.Extra k = none) :
    DefaultTagPrefix = utf8 "#" ∧
    (∀ hub enab fs, (NewCore hub enab fs).1.TagPrefix = [] ∧
      (NewCore hub enab fs).1.activeTagPrefix = utf8 "#") ∧
    ∃ event err,
      core.Write NewEvent range entry fields = some ⟨[.CaptureEvent event], err⟩ ∧
      (∀ t s, nilableGet event.Tags t = some s ↔
        ∃ key value, mapGet (encode core.fields fields).Fields key = some value ∧
          strings.HasPrefix key (if core.TagPrefix = [] then utf8 "#" else core.TagPrefix)
            = true ∧
          key.drop 1 = t ∧ tagValue value = s) ∧
      (∀ key value, nilableGet event.Extra key = some value ↔
        mapGet (encode core.fields fields).Fields key = some value ∧
          strings.HasPrefix key (if core.TagPrefix = [] then utf8 "#" else core.TagPrefix)
            = false) := by
  refine ⟨rfl, fun _ _ _ => ⟨rfl, rfl⟩, ?_⟩
  obtain ⟨tags, extra, hw, ht, hx⟩ :=
    Write_lookup NewEvent range core entry fields hrange hTags hExtra
  exact ⟨_, _, hw, ht, hx⟩

/-- C12, at a core as `NewCore` returns it and at a core with the prefix `%%`,
each with the fields `#a = "1"` and `%%b = "2"`: the first makes `#a` the
tag, the second `%%b`. -/
theorem Write_active_tag_prefix_witness :
    (∀ m : GoMap GoString Any, (id m).Perm m) ∧
    (∀ k, nilableGet sentryNewEvent.Tags k = none) ∧
    (∀ k, nilableGet sentryNewEvent.Extra k = none) ∧
    (DefaultTagPrefix = utf8 "#" ∧
    (∀ hub enab fs, (NewCore hub enab fs).1.TagPrefix = [] ∧
      (NewCore hub enab fs).1.activeTagPrefix = utf8 "#") ∧
    ∃ event err,
      exampleCore.Write sentryNewEvent id exampleEntry
          [⟨utf8 "#a", .string (utf8 "1")⟩, ⟨utf8 "%%b", .string (utf8 "2")⟩]
        = some ⟨[.CaptureEvent event], err⟩ ∧
      (∀ t s, nilableGet event.Tags t = some s ↔
        ∃ key value, mapGet (encode exampleCore.fields
            [⟨utf8 "#a", .string (utf8 "1")⟩, ⟨utf8 "%%b", .string (utf8 "2")⟩]).Fields key
              = some value ∧
          strings.HasPrefix key
            (if exampleCore.TagPrefix = [] then utf8 "#" else exampleCore.TagPrefix) = true ∧
          key.drop 1 = t ∧ tagValue value = s) ∧
      (∀ key value, nilableGet event.Extra key = some value ↔
        mapGet (encode exampleCore.fields
            [⟨utf8 "#a", .string (utf8 "1")⟩, ⟨utf8 "%%b", .string (utf8 "2")⟩]).Fields key
              = some value ∧
          strings.HasPrefix key
            (if exampleCore.TagPrefix = [] then utf8 "#" else exampleCore.TagPrefix) = false)) ∧
    exampleCore.Write sentryNewEvent id exampleEntry
        [⟨utf8 "#a", .string (utf8 "1")⟩, ⟨utf8 "%%b", .string (utf8 "2")⟩]
      = some ⟨[.CaptureEvent ⟨utf8 "started", 1572900000, utf8 "info", utf8 "app",
          some [(utf8 "a", utf8 "1")], some [(utf8 "%%b", .string (utf8 "2"))]⟩], none⟩ ∧
    ({ exampleCore with TagPrefix := utf8 "%%" }).Write sentryNewEvent id exampleEntry
        [⟨utf8 "#a", .string (utf8 "1")⟩, ⟨utf8 "%%b", .string (utf8 "2")⟩]
      = some ⟨[.CaptureEvent ⟨utf8 "started", 1572900000, utf8 "info", utf8 "app",
          some [(utf8 "%b", utf8 "2")], some [(utf8 "#a", .string (utf8 "1"))]⟩], none⟩ :=
  ⟨fun m => List.Perm.refl m, fun _ => rfl, fun _ => rfl,
    Write_active_tag_prefix sentryNewEvent id exampleCore exampleEntry _
      (fun m => List.Perm.refl m) (fun _ => rfl) (fun _ => rfl),
    by decide, by decide⟩

/-- C13: the event that `Write` hands to the hub has the message, the time and
the logger name of the record, copied as they are, and the severity that the
level mapping gives for the severity of the record: the entry of the table,
which is the mapping of the specification (debug, info, warning, error, and
error for dpanic, panic and fatal).  A call with other fields, on another
core, for the same record gives the same four. -/
theorem Write_copies_entry (NewEvent : sentry.Event)
    (range : GoMap GoString Any → List (GoString × Any))
    (core : SentryCore) (entry : zapcore.Entry) (fields : List zapcore.Field) :
    (∃ event err,
      core.Write NewEvent range entry fields = some ⟨[.CaptureEvent event], err⟩ ∧
      event.Message = entry.Message ∧ event.Timestamp = entry.Time ∧
      event.Logger = entry.LoggerName ∧
      event.Level = mapIndex [] zapToSentryLevels entry.Level ∧
      event.Level = mappedSeverity entry.Level ∧
      ∀ (NewEvent2 : sentry.Event) (range2 : GoMap GoString Any → List (GoString × Any))
        (core2 : SentryCore) (fields2 : List zapcore.Field),
        ∃ event2 err2,
          core2.Write NewEvent2 range2 entry fields2 = some ⟨[.CaptureEvent event2], err2⟩ ∧
          event2.Message = event.Message ∧ event2.Timestamp = event.Timestamp ∧
          event2.Logger = event.Logger ∧ event2.Level = event.Level) ∧
    mappedSeverity zapcore.DebugLevel = utf8 "debug" ∧
    mappedSeverity zapcore.InfoLevel = utf8 "info" ∧
    mappedSeverity zapcore.WarnLevel = utf8 "warning" ∧
    mappedSeverity zapcore.ErrorLevel = utf8 "error" ∧
    mappedSeverity zapcore.DPanicLevel = utf8 "error" ∧
    mappedSeverity zapcore.PanicLevel = utf8 "error" ∧
    mappedSeverity zapcore.FatalLevel = utf8 "error" ∧
    exampleCore.Write sentryNewEvent id exampleEntry exampleFields
      = some ⟨[.CaptureEvent ⟨utf8 "started", 1572900000, utf8 "info", utf8 "app",
          some [(utf8 "env", utf8 "prod"), (utf8 "n", utf8 "42")],
          some [(utf8 "count", .int64 3)]⟩], none⟩ ∧
    contextCore.Write sentryNewEvent id
        ⟨zapcore.PanicLevel, 1572900001, utf8 "db", utf8 "lost"⟩ []
      = some ⟨[.CaptureEvent ⟨utf8 "lost", 1572900001, utf8 "error", utf8 "db",
          some [(utf8 "env", utf8 "dev")],
          some [(utf8 "svc", .string (utf8 "api"))]⟩], none⟩ := by
  refine ⟨?_, by decide, by decide, by decide, by decide, by decide, by decide, by decide,
    by decide, by decide⟩
  obtain ⟨tags, extra, -, hw⟩ := Write_eq NewEvent range core entry fields
  refine ⟨_, _, hw, rfl, rfl, rfl, rfl, mapIndex_zapToSentryLevels entry.Level, ?_⟩
  intro NewEvent2 range2 core2 fields2
  obtain ⟨tags2, extra2, -, hw2⟩ := Write_eq NewEvent2 range2 core2 entry fields2
  exact ⟨_, _, hw2, rfl, rfl, rfl, rfl⟩

/-- C14: the core that `With` returns has the level filter, the hub and the
configured tag prefix of the receiver (and its `level`); only the accumulated
fields differ, which are those of the receiver followed by the argument. -/
theorem With_keeps_configuration (core : SentryCore) (fields : List zapcore.Field) :
    (core.With fields).LevelEnabler = core.LevelEnabler ∧
    (core.With fields).hub = core.hub ∧
    (core.With fields).TagPrefix = core.TagPrefix ∧
    (core.With fields).level = core.level ∧
    core.With fields = { core with fields := core.fields ++ fields } := by
  refine ⟨rfl, rfl, rfl, rfl, ?_⟩
  have h := With_fields core fields
  cases core
  simp only [SentryCore.With] at h ⊢
  rw [h]

/-- C17: for a record whose severity is outside the seven of the table, the
lookup finds no entry and gives the zero severity, the empty string; `Write`
still hands the event to the hub, and returns an error exactly when the hub
returns no identifier. -/
theorem Write_unmapped_level (NewEvent : sentry.Event)
    (range : GoMap GoString Any → List (GoString × Any))
    (core : SentryCore) (entry : zapcore.Entry) (fields : List zapcore.Field)
    (h : entry.Level < zapcore.DebugLevel ∨ zapcore.FatalLevel < entry.Level) :
    mapGet zapToSentryLevels entry.Level = none ∧
    ∃ event err,
      core.Write NewEvent range entry fields = some ⟨[.CaptureEvent event], err⟩ ∧
      event.Level = [] ∧
      (err = some .ErrClientOrScopeUnavailable ↔ core.hub.CaptureEvent event = none) ∧
      (err = none ↔ ∃ id, core.hub.CaptureEvent event = some id) := by
  have hnone : mapGet zapToSentryLevels entry.Level = none :=
    mapGet_zapToSentryLevels_none entry.Level h
  refine ⟨hnone, ?_⟩
  obtain ⟨tags, extra, -, hw⟩ := Write_eq NewEvent range core entry fields
  refine ⟨_, _, hw, ?_, ?_, ?_⟩
  · simp [builtEvent, mapIndex, hnone]
  · cases core.hub.CaptureEvent (builtEvent NewEvent entry tags extra) <;> simp
  · cases core.hub.CaptureEvent (builtEvent NewEvent entry tags extra) <;> simp

/-- C17, at a record of severity 6, with a tag and an extra. -/
theorem Write_unmapped_level_witness :
    (unmappedEntry.Level < zapcore.DebugLevel ∨ zapcore.FatalLevel < unmappedEntry.Level) ∧
    (mapGet zapToSentryLevels unmappedEntry.Level = none ∧
    ∃ event err,
      exampleCore.Write sentryNewEvent id unmappedEntry
          [⟨utf8 "#env", .string (utf8 "prod")⟩, ⟨utf8 "count", .int64 3⟩]
        = some ⟨[.CaptureEvent event], err⟩ ∧
      event.Level = [] ∧
      (err = some .ErrClientOrScopeUnavailable ↔ exampleCore.hub.CaptureEvent event = none) ∧
      (err = none ↔ ∃ id, exampleCore.hub.CaptureEvent event = some id)) ∧
    exampleCore.Write sentryNewEvent id unmappedEntry
        [⟨utf8 "#env", .string (utf8 "prod")⟩, ⟨utf8 "count", .int64 3⟩]
      = some ⟨[.CaptureEvent ⟨utf8 "odd", 1572900000, [], utf8 "app",
          some [(utf8 "env", utf8 "prod")], some [(utf8 "count", .int64 3)]⟩], none⟩ :=
  ⟨by decide,
    Write_unmapped_level sentryNewEvent id exampleCore unmappedEntry _ (by decide),
    by decide⟩

/-! ## The receiver -/

theorem CheckOn_run (core : SentryCore) (entry : zapcore.Entry)
    (checked : Option CheckedEntry) :
    Id.run ((SentryCore.CheckOn entry checked).run core) = (core.Check entry checked, core) := by
  unfold SentryCore.CheckOn SentryCore.Check
  cases h : core.LevelEnabler.Enabled entry.Level <;>
    simp [StateT.run, bind, StateT.bind, get, getThe, MonadStateOf.get, StateT.get, pure,
      StateT.pure, Id.run, h]

theorem SyncOn_run (core : SentryCore) :
    Id.run (SentryCore.SyncOn.run core) = (core.Sync, core) := by
  unfold SentryCore.SyncOn SentryCore.Sync
  cases h : core.hub.Flush (time.Second * 5) <;>
    simp [StateT.run, bind, StateT.bind, get, getThe, MonadStateOf.get, StateT.get, pure,
      StateT.pure, Id.run, h]

theorem WriteOn_run (NewEvent : sentry.Event)
    (range : GoMap GoString Any → List (GoString × Any))
    (core : SentryCore) (entry : zapcore.Entry) (fields : List zapcore.Field) :
    Id.run ((SentryCore.WriteOn NewEvent range entry fields).run core)
      = (core.Write NewEvent range entry fields, core) := by
  unfold SentryCore.WriteOn SentryCore.Write
  simp only [StateT.run, bind, StateT.bind, get, getThe, MonadStateOf.get, StateT.get, pure,
    StateT.pure, Id.run, encode, SentryCore.activeTagPrefix]
  generalize classify _ _ _ = r
  rcases r with _ | ⟨tags, extra⟩
  · rfl
  · by_cases ht : mapLen tags > 0 <;> by_cases hx : mapLen extra > 0 <;>
      simp only [ht, hx, if_true, if_false, StateT.bind, StateT.get, StateT.pure, bind, pure,
        ite_apply] <;>
      split <;> rfl

/-- C15: `Write`, `Check` and `Sync` only read the struct of their receiver.
Run on a core, each returns what the method returns on values and leaves
the struct as it was, so the accumulated fields, the configured tag prefix,
the level filter and the hub of the core are after the call what they were
before, for every record and every per-call field list. -/
theorem methods_leave_receiver (NewEvent : sentry.Event)
    (range : GoMap GoString Any → List (GoString × Any))
    (core : SentryCore) (entry : zapcore.Entry) (fields : List zapcore.Field)
    (checked : Option CheckedEntry) :
    Id.run ((SentryCore.WriteOn NewEvent range entry fields).run core)
      = (core.Write NewEvent range entry fields, core) ∧
    Id.run ((SentryCore.CheckOn entry checked).run core) = (core.Check entry checked, core) ∧
    Id.run (SentryCore.SyncOn.run core) = (core.Sync, core) ∧
    ((Id.run ((SentryCore.WriteOn NewEvent range entry fields).run core)).2.fields = core.fields ∧
      (Id.run ((SentryCore.WriteOn NewEvent range entry fields).run core)).2.TagPrefix
        = core.TagPrefix ∧
      (Id.run ((SentryCore.WriteOn NewEvent range entry fields).run core)).2.LevelEnabler
        = core.LevelEnabler ∧
      (Id.run ((SentryCore.WriteOn NewEvent range entry fields).run core)).2.hub = core.hub) ∧
    ((Id.run ((SentryCore.CheckOn entry checked).run core)).2.fields = core.fields ∧
      (Id.run ((SentryCore.CheckOn entry checked).run core)).2.TagPrefix = core.TagPrefix ∧
      (Id.run ((SentryCore.CheckOn entry checked).run core)).2.LevelEnabler
        = core.LevelEnabler ∧
      (Id.run ((SentryCore.CheckOn entry checked).run core)).2.hub = core.hub) ∧
    ((Id.run (SentryCore.SyncOn.run core)).2.fields = core.fields ∧
      (Id.run (SentryCore.SyncOn.run core)).2.TagPrefix = core.TagPrefix ∧
      (Id.run (SentryCore.SyncOn.run core)).2.LevelEnabler = core.LevelEnabler ∧
      (Id.run (SentryCore.SyncOn.run core)).2.hub = core.hub) := by
  have hw := WriteOn_run NewEvent range core entry fields
  have hc := CheckOn_run core entry checked
  have hs := SyncOn_run core
  refine ⟨hw, hc, hs, ?_, ?_, ?_⟩
  · rw [hw]
    exact ⟨rfl, rfl, rfl, rfl⟩
  · rw [hc]
    exact ⟨rfl, rfl, rfl, rfl⟩
  · rw [hs]
    exact ⟨rfl, rfl, rfl, rfl⟩

/-! ## With, then Write -/

theorem With_eq (core : SentryCore) (fields : List zapcore.Field) :
    core.With fields = { core with fields := core.fields ++ fields } := by
  have h := With_fields core fields
  cases core
  simp only [SentryCore.With] at h ⊢
  rw [h]

theorem encode_append (accumulated f g : List zapcore.Field) :
    encode (accumulated ++ f) g = encode accumulated (f ++ g) := by
  rw [encode_eq_foldl, encode_eq_foldl, List.append_assoc]

theorem Write_With (NewEvent : sentry.Event)
    (range : GoMap GoString Any → List (GoString × Any))
    (core : SentryCore) (entry : zapcore.Entry) (f g : List zapcore.Field) :
    (core.With f).Write NewEvent range entry g = core.Write NewEvent range entry (f ++ g) := by
  rw [With_eq]
  simp only [SentryCore.Write, SentryCore.activeTagPrefix, encode_append]

/-! ## Counting and order -/

theorem length_mapSet_of_none {K V : Type} [DecidableEq K] (m : GoMap K V) (k : K) (v : V)
    (h : mapGet m k = none) : (mapSet m k v).length = m.length + 1 := by
  induction m with
  | nil => rfl
  | cons e m ih =>
    obtain ⟨k0, v0⟩ := e
    by_cases h0 : k0 = k
    · simp [mapGet, h0] at h
    · simp only [mapGet, h0, if_false] at h
      simp [mapSet, h0, ih h]

theorem classify_length (p : GoString) (hp : p ≠ []) (es : List (GoString × Any)) :
    (es.map Prod.fst).Nodup → ∀ tags extra, classify p es ([], []) = some (tags, extra) →
      tags.length + extra.length = es.length := by
  induction es using List.reverseRecOn with
  | nil =>
    intro _ tags extra h
    simp only [classify, Option.some.injEq, Prod.mk.injEq] at h
    obtain ⟨rfl, rfl⟩ := h
    rfl
  | append_singleton es e ih =>
    intro hnd tags extra h
    obtain ⟨key, value⟩ := e
    have hnd0 := hnd
    rw [List.map_append, List.nodup_append] at hnd
    obtain ⟨hes, -, hdis⟩ := hnd
    have hkey : ∀ w, (key, w) ∉ es := fun w hw =>
      hdis (List.mem_map_of_mem Prod.fst hw) (by simp)
    obtain ⟨⟨t0, x0⟩, h0⟩ := classify_total p hp es ([], [])
    obtain ⟨iht, ihx⟩ := classify_lookup p hp es hes t0 x0 h0
    have ihl := ih hes t0 x0 h0
    rw [classify_append, h0] at h
    simp only [Option.bind] at h
    cases hpre : strings.HasPrefix key p
    · rw [classify_extra p key value [] t0 x0 hpre] at h
      simp only [classify, Option.some.injEq, Prod.mk.injEq] at h
      obtain ⟨rfl, rfl⟩ := h
      have hnone : mapGet x0 key = none := by
        cases hx : mapGet x0 key with
        | none => rfl
        | some v => exact absurd ((ihx key v).1 hx).1 (hkey v)
      rw [length_mapSet_of_none x0 key value hnone, List.length_append, List.length_singleton]
      omega
    · rw [classify_tag p key value [] t0 x0 hp hpre] at h
      simp only [classify, Option.some.injEq, Prod.mk.injEq] at h
      obtain ⟨rfl, rfl⟩ := h
      have hnone : mapGet t0 (key.drop 1) = none := by
        cases ht : mapGet t0 (key.drop 1) with
        | none => rfl
        | some s =>
          obtain ⟨k, v, hm, h1, h2, -⟩ := (iht (key.drop 1) s).1 ht
          have hkk : k = key := drop_one_injective k key p hp h1 hpre h2
          subst hkk
          exact absurd hm (hkey v)
      rw [length_mapSet_of_none t0 (key.drop 1) (tagValue value) hnone, List.length_append,
        List.length_singleton]
      omega

theorem nilableLen_of_no_entry {K V : Type} [DecidableEq K] (m : Option (GoMap K V))
    (h : ∀ k, nilableGet m k = none) : nilableLen m = 0 := by
  cases m with
  | none => rfl
  | some m =>
    cases m with
    | nil => rfl
    | cons e m =>
      have := h e.1
      simp [nilableGet, mapGet] at this

theorem nilableLen_built_Tags (NewEvent : sentry.Event) (entry : zapcore.Entry)
    (tags : GoMap GoString GoString) (extra : GoMap GoString Any)
    (hTags : ∀ k, nilableGet NewEvent.Tags k = none) :
    nilableLen (builtEvent NewEvent entry tags extra).Tags = tags.length := by
  cases tags with
  | nil => simp [builtEvent, mapLen, nilableLen_of_no_entry NewEvent.Tags hTags]
  | cons e tags => simp [builtEvent, mapLen, nilableLen]

theorem nilableLen_built_Extra (NewEvent : sentry.Event) (entry : zapcore.Entry)
    (tags : GoMap GoString GoString) (extra : GoMap GoString Any)
    (hExtra : ∀ k, nilableGet NewEvent.Extra k = none) :
    nilableLen (builtEvent NewEvent entry tags extra).Extra = extra.length := by
  cases extra with
  | nil => simp [builtEvent, mapLen, nilableLen_of_no_entry NewEvent.Extra hExtra]
  | cons e extra => simp [builtEvent, mapLen, nilableLen]

theorem mem_keys_foldl_AddTo (fs : List zapcore.Field) (key : GoString) :
    ∀ enc : zapcore.MapObjectEncoder,
      key ∈ (fs.foldl (fun enc f => f.AddTo enc) enc).Fields.map Prod.fst
        ↔ key ∈ fs.map (fun f => f.Key) ∨ key ∈ enc.Fields.map Prod.fst := by
  induction fs with
  | nil => simp
  | cons f fs ih =>
    intro enc
    rw [List.foldl_cons, ih]
    simp only [zapcore.Field.AddTo, mem_keys_mapSet, List.map_cons, List.mem_cons]
    tauto

theorem length_encode (accumulated fields : List zapcore.Field) :
    mapLen (encode accumulated fields).Fields
      = ((accumulated ++ fields).map (fun f => f.Key)).dedup.length := by
  have hperm : ((encode accumulated fields).Fields.map Prod.fst).Perm
      ((accumulated ++ fields).map (fun f => f.Key)).dedup := by
    rw [List.perm_ext_iff_of_nodup (nodup_keys_encode accumulated fields) (List.nodup_dedup _)]
    intro key
    rw [List.mem_dedup, encode_eq_foldl, mem_keys_foldl_AddTo]
    simp [zapcore.NewMapObjectEncoder]
  have := hperm.length_eq
  rw [List.length_map] at this
  exact this

theorem Write_two_orders (NewEvent : sentry.Event)
    (range1 range2 : GoMap GoString Any → List (GoString × Any))
    (core : SentryCore) (entry : zapcore.Entry) (fields : List zapcore.Field)
    (hrange1 : ∀ m, (range1 m).Perm m) (hrange2 : ∀ m, (range2 m).Perm m)
    (hTags : ∀ k, nilableGet NewEvent.Tags k = none)
    (hExtra : ∀ k, nilableGet NewEvent.Extra k = none) :
    ∃ tags1 extra1 tags2 extra2,
      core.Write NewEvent range1 entry fields
        = some ⟨[.CaptureEvent (builtEvent NewEvent entry tags1 extra1)],
            if core.hub.CaptureEvent (builtEvent NewEvent entry tags1 extra1) = none then
              some .ErrClientOrScopeUnavailable else none⟩ ∧
      core.Write NewEvent range2 entry fields
        = some ⟨[.CaptureEvent (builtEvent NewEvent entry tags2 extra2)],
            if core.hub.CaptureEvent (builtEvent NewEvent entry tags2 extra2) = none then
              some .ErrClientOrScopeUnavailable else none⟩ ∧
      (∀ t, nilableGet (builtEvent NewEvent entry tags1 extra1).Tags t
        = nilableGet (builtEvent NewEvent entry tags2 extra2).Tags t) ∧
      (∀ k, nilableGet (builtEvent NewEvent entry tags1 extra1).Extra k
        = nilableGet (builtEvent NewEvent entry tags2 extra2).Extra k) ∧
      nilableLen (builtEvent NewEvent entry tags1 extra1).Tags
          + nilableLen (builtEvent NewEvent entry tags1 extra1).Extra
        = mapLen (encode core.fields fields).Fields ∧
      nilableLen (builtEvent NewEvent entry tags2 extra2).Tags
          + nilableLen (builtEvent NewEvent entry tags2 extra2).Extra
        = mapLen (encode core.fields fields).Fields := by
  obtain ⟨tags1, extra1, hc1, hw1⟩ := Write_eq NewEvent range1 core entry fields
  obtain ⟨tags2, extra2, hc2, hw2⟩ := Write_eq NewEvent range2 core entry fields
  obtain ⟨ht1, hx1⟩ := classify_lookup core.activeTagPrefix (activeTagPrefix_ne_nil core) _
    (nodup_keys_range range1 hrange1 core.fields fields) tags1 extra1 hc1
  obtain ⟨ht2, hx2⟩ := classify_lookup core.activeTagPrefix (activeTagPrefix_ne_nil core) _
    (nodup_keys_range range2 hrange2 core.fields fields) tags2 extra2 hc2
  have hmem : ∀ e, e ∈ range1 (encode core.fields fields).Fields
      ↔ e ∈ range2 (encode core.fields fields).Fields := fun e =>
    ((hrange1 _).trans (hrange2 _).symm).mem_iff
  refine ⟨tags1, extra1, tags2, extra2, hw1, hw2, ?_, ?_, ?_, ?_⟩
  · intro t
    rw [nilableGet_built_Tags NewEvent entry tags1 extra1 hTags,
      nilableGet_built_Tags NewEvent entry tags2 extra2 hTags]
    apply Option.ext
    intro s
    rw [Option.mem_def, Option.mem_def, ht1, ht2]
    simp only [hmem]
  · intro k
    rw [nilableGet_built_Extra NewEvent entry tags1 extra1 hExtra,
      nilableGet_built_Extra NewEvent entry tags2 extra2 hExtra]
    apply Option.ext
    intro v
    rw [Option.mem_def, Option.mem_def, hx1, hx2, hmem]
  · rw [nilableLen_built_Tags NewEvent entry tags1 extra1 hTags,
      nilableLen_built_Extra NewEvent entry tags1 extra1 hExtra,
      classify_length core.activeTagPrefix (activeTagPrefix_ne_nil core) _
        (nodup_keys_range range1 hrange1 core.fields fields) tags1 extra1 hc1]
    exact (hrange1 _).length_eq
  · rw [nilableLen_built_Tags NewEvent entry tags2 extra2 hTags,
      nilableLen_built_Extra NewEvent entry tags2 extra2 hExtra,
      classify_length core.activeTagPrefix (activeTagPrefix_ne_nil core) _
        (nodup_keys_range range2 hrange2 core.fields fields) tags2 extra2 hc2]
    exact (hrange2 _).length_eq

/-- C18: attaching fields through `With` is the same as passing them at the
call.  With the map visited in the same order, `Write` on the core that
`With(f)` returns, with the fields `g`, is `Write` on the receiver with the
fields `f ++ g`: the same event to the hub and the same result.  With the
map visited in any two orders, the two events still have the same message,
time, severity and logger name, the same tags and the same extras. -/
theorem With_then_Write_eq_Write_append (NewEvent : sentry.Event)
    (range1 range2 : GoMap GoString Any → List (GoString × Any))
    (core : SentryCore) (entry : zapcore.Entry) (f g : List zapcore.Field)
    (hrange1 : ∀ m, (range1 m).Perm m) (hrange2 : ∀ m, (range2 m).Perm m)
    (hTags : ∀ k, nilableGet NewEvent.Tags k = none)
    (hExtra : ∀ k, nilableGet NewEvent.Extra k = none) :
    (core.With f).Write NewEvent range1 entry g = core.Write NewEvent range1 entry (f ++ g) ∧
    ∃ event1 err1 event2 err2,
      (core.With f).Write NewEvent range1 entry g = some ⟨[.CaptureEvent event1], err1⟩ ∧
      core.Write NewEvent range2 entry (f ++ g) = some ⟨[.CaptureEvent event2], err2⟩ ∧
      event1.Message = event2.Message ∧ event1.Timestamp = event2.Timestamp ∧
      event1.Level = event2.Level ∧ event1.Logger = event2.Logger ∧
      (∀ t, nilableGet event1.Tags t = nilableGet event2.Tags t) ∧
      (∀ k, nilableGet event1.Extra k = nilableGet event2.Extra k) := by
  refine ⟨Write_With NewEvent range1 core entry f g, ?_⟩
  rw [Write_With]
  obtain ⟨tags1, extra1, tags2, extra2, hw1, hw2, ht, hx, -, -⟩ :=
    Write_two_orders NewEvent range1 range2 core entry (f ++ g) hrange1 hrange2 hTags hExtra
  exact ⟨_, _, _, _, hw1, hw2, rfl, rfl, rfl, rfl, ht, hx⟩

/-- C18, at a core with accumulated fields, with `f` the field `#env = "prod"`
and `g` the fields `count = 3` and `#n = 42`, the map visited first to last
and last to first. -/
theorem With_then_Write_eq_Write_append_witness :
    (∀ m : GoMap GoString Any, (id m).Perm m) ∧
    (∀ m : GoMap GoString Any, (List.reverse m).Perm m) ∧
    (∀ k, nilableGet sentryNewEvent.Tags k = none) ∧
    (∀ k, nilableGet sentryNewEvent.Extra k = none) ∧
    ((contextCore.With [⟨utf8 "#env", .string (utf8 "prod")⟩]).Write sentryNewEvent id
        exampleEntry [⟨utf8 "count", .int64 3⟩, ⟨utf8 "#n", .int64 42⟩]
      = contextCore.Write sentryNewEvent id exampleEntry
          ([⟨utf8 "#env", .string (utf8 "prod")⟩]
            ++ [⟨utf8 "count", .int64 3⟩, ⟨utf8 "#n", .int64 42⟩]) ∧
    ∃ event1 err1 event2 err2,
      (contextCore.With [⟨utf8 "#env", .string (utf8 "prod")⟩]).Write sentryNewEvent id
          exampleEntry [⟨utf8 "count", .int64 3⟩, ⟨utf8 "#n", .int64 42⟩]
        = some ⟨[.CaptureEvent event1], err1⟩ ∧
      contextCore.Write sentryNewEvent List.reverse exampleEntry
          ([⟨utf8 "#env", .string (utf8 "prod")⟩]
            ++ [⟨utf8 "count", .int64 3⟩, ⟨utf8 "#n", .int64 42⟩])
        = some ⟨[.CaptureEvent event2], err2⟩ ∧
      event1.Message = event2.Message ∧ event1.Timestamp = event2.Timestamp ∧
      event1.Level = event2.Level ∧ event1.Logger = event2.Logger ∧
      (∀ t, nilableGet event1.Tags t = nilableGet event2.Tags t) ∧
      (∀ k, nilableGet event1.Extra k = nilableGet event2.Extra k)) ∧
    (contextCore.With [⟨utf8 "#env", .string (utf8 "prod")⟩]).Write sentryNewEvent id
        exampleEntry [⟨utf8 "count", .int64 3⟩, ⟨utf8 "#n", .int64 42⟩]
      = some ⟨[.CaptureEvent ⟨utf8 "started", 1572900000, utf8 "info", utf8 "app",
          some [(utf8 "env", utf8 "prod"), (utf8 "n", utf8 "42")],
          some [(utf8 "svc", .string (utf8 "api")), (utf8 "count", .int64 3)]⟩], none⟩ ∧
    contextCore.Write sentryNewEvent List.reverse exampleEntry
        ([⟨utf8 "#env", .string (utf8 "prod")⟩]
          ++ [⟨utf8 "count", .int64 3⟩, ⟨utf8 "#n", .int64 42⟩])
      = some ⟨[.CaptureEvent ⟨utf8 "started", 1572900000, utf8 "info", utf8 "app",
          some [(utf8 "n", utf8 "42"), (utf8 "env", utf8 "prod")],
          some [(utf8 "count", .int64 3), (utf8 "svc", .string (utf8 "api"))]⟩], none⟩ :=
  ⟨fun m => List.Perm.refl m, fun m => List.reverse_perm m, fun _ => rfl, fun _ => rfl,
    With_then_Write_eq_Write_append sentryNewEvent id List.reverse contextCore exampleEntry _ _
      (fun m => List.Perm.refl m) (fun m => List.reverse_perm m) (fun _ => rfl) (fun _ => rfl),
    by decide, by decide⟩

/-- C19: classification in `Write` neither loses nor merges fields.  The active
prefix is never empty; on the keys that start with it, removing the first
byte (`key[1:]`) is injective, so two distinct merged keys never give one
tag key.  The number of tags plus the number of extras of the event is the
number of entries of the merged map, which is the number of distinct keys of
accumulated ++ per-call.  Whatever the order in which the map is visited,
the event has the same tags and the same extras. -/
theorem Write_classification_lossless (NewEvent : sentry.Event)
    (range1 range2 : GoMap GoString Any → List (GoString × Any))
    (core : SentryCore) (entry : zapcore.Entry) (fields : List zapcore.Field)
    (hrange1 : ∀ m, (range1 m).Perm m) (hrange2 : ∀ m, (range2 m).Perm m)
    (hTags : ∀ k, nilableGet NewEvent.Tags k = none)
    (hExtra : ∀ k, nilableGet NewEvent.Extra k = none) :
    core.activeTagPrefix ≠ [] ∧
    (∀ k1 k2 t, strings.HasPrefix k1 core.activeTagPrefix = true →
      strings.HasPrefix k2 core.activeTagPrefix = true →
      sliceFrom k1 1 = some t → sliceFrom k2 1 = some t → k1 = k2) ∧
    mapLen (encode core.fields fields).Fields
      = ((core.fields ++ fields).map (fun f => f.Key)).dedup.length ∧
    ∃ event1 err1 event2 err2,
      core.Write NewEvent range1 entry fields = some ⟨[.CaptureEvent event1], err1⟩ ∧
      core.Write NewEvent range2 entry fields = some ⟨[.CaptureEvent event2], err2⟩ ∧
      nilableLen event1.Tags + nilableLen event1.Extra
        = ((core.fields ++ fields).map (fun f => f.Key)).dedup.length ∧
      nilableLen event2.Tags + nilableLen event2.Extra
        = ((core.fields ++ fields).map (fun f => f.Key)).dedup.length ∧
      (∀ t, nilableGet event1.Tags t = nilableGet event2.Tags t) ∧
      (∀ k, nilableGet event1.Extra k = nilableGet event2.Extra k) := by
  have hp := activeTagPrefix_ne_nil core
  refine ⟨hp, ?_, length_encode core.fields fields, ?_⟩
  · intro k1 k2 t h1 h2 e1 e2
    rw [sliceFrom_of_HasPrefix k1 _ hp h1] at e1
    rw [sliceFrom_of_HasPrefix k2 _ hp h2] at e2
    exact drop_one_injective k1 k2 _ hp h1 h2
      ((Option.some.inj e1).trans (Option.some.inj e2).symm)
  · obtain ⟨tags1, extra1, tags2, extra2, hw1, hw2, ht, hx, hn1, hn2⟩ :=
      Write_two_orders NewEvent range1 range2 core entry fields hrange1 hrange2 hTags hExtra
    rw [length_encode] at hn1 hn2
    exact ⟨_, _, _, _, hw1, hw2, hn1, hn2, ht, hx⟩

/-- C19, at a core with the accumulated fields `#env` and `svc` and the per-call
fields `#env`, `count` and `#n`, the map visited first to last and last to
first: four distinct keys, two tags and two extras. -/
theorem Write_classification_lossless_witness :
    (∀ m : GoMap GoString Any, (id m).Perm m) ∧
    (∀ m : GoMap GoString Any, (List.reverse m).Perm m) ∧
    (∀ k, nilableGet sentryNewEvent.Tags k = none) ∧
    (∀ k, nilableGet sentryNewEvent.Extra k = none) ∧
    (contextCore.activeTagPrefix ≠ [] ∧
    (∀ k1 k2 t, strings.HasPrefix k1 contextCore.activeTagPrefix = true →
      strings.HasPrefix k2 contextCore.activeTagPrefix = true →
      sliceFrom k1 1 = some t → sliceFrom k2 1 = some t → k1 = k2) ∧
    mapLen (encode contextCore.fields exampleFields).Fields
      = ((contextCore.fields ++ exampleFields).map (fun f => f.Key)).dedup.length ∧
    ∃ event1 err1 event2 err2,
      contextCore.Write sentryNewEvent id exampleEntry exampleFields
        = some ⟨[.CaptureEvent event1], err1⟩ ∧
      contextCore.Write sentryNewEvent List.reverse exampleEntry exampleFields
        = some ⟨[.CaptureEvent event2], err2⟩ ∧
      nilableLen event1.Tags + nilableLen event1.Extra
        = ((contextCore.fields ++ exampleFields).map (fun f => f.Key)).dedup.length ∧
      nilableLen event2.Tags + nilableLen event2.Extra
        = ((contextCore.fields ++ exampleFields).map (fun f => f.Key)).dedup.length ∧
      (∀ t, nilableGet event1.Tags t = nilableGet event2.Tags t) ∧
      (∀ k, nilableGet event1.Extra k = nilableGet event2.Extra k)) ∧
    ((contextCore.fields ++ exampleFields).map (fun f => f.Key)).dedup.length = 4 ∧
    contextCore.Write sentryNewEvent id exampleEntry exampleFields
      = some ⟨[.CaptureEvent ⟨utf8 "started", 1572900000, utf8 "info", utf8 "app",
          some [(utf8 "env", utf8 "prod"), (utf8 "n", utf8 "42")],
          some [(utf8 "svc", .string (utf8 "api")), (utf8 "count", .int64 3)]⟩], none⟩ ∧
    contextCore.Write sentryNewEvent List.reverse exampleEntry exampleFields
      = some ⟨[.CaptureEvent ⟨utf8 "started", 1572900000, utf8 "info", utf8 "app",
          some [(utf8 "n", utf8 "42"), (utf8 "env", utf8 "prod")],
          some [(utf8 "count", .int64 3), (utf8 "svc", .string (utf8 "api"))]⟩], none⟩ :=
  ⟨fun m => List.Perm.refl m, fun m => List.reverse_perm m, fun _ => rfl, fun _ => rfl,
    Write_classification_lossless sentryNewEvent id List.reverse contextCore exampleEntry _
      (fun m => List.Perm.refl m) (fun m => List.reverse_perm m) (fun _ => rfl) (fun _ => rfl),
    by decide, by decide, by decide⟩

end zapsentry
